import Mathlib

set_option linter.unusedVariables false

/-!
Verification of the checkmate task manager's persistence and view engine.

The development shallowly embeds:
  * `src/checkmate/models.py` (the `Task` dataclass),
  * `src/checkmate/repository.py` (`FileTaskRepository` and its line codec),
  * `src/checkmate/services.py` (`TodoService` validation paths),
  * `src/checkmate/widgets/task_list.py` (filtering and sorting).

Python strings are modelled as Lean `String` (a list of characters), with
the Python string primitives used by the code (`str.strip`, `str.upper`,
`str.split`, `str.replace`, `re.findall` for the two fixed tag regexes)
re-implemented on `List Char`.
-/

namespace Checkmate

/-- A calendar date, as produced by `datetime.date`. Only equality is needed
by the claims, so the representation is a plain year/month/day triple. -/
structure Date where
  year : Nat
  month : Nat
  day : Nat
deriving DecidableEq

/-- Left-pad a numeral to two digits, as `%m`/`%d` in `strftime` do. -/
def pad2 (n : Nat) : String :=
  if n < 10 then "0" ++ toString n else toString n

/-- Left-pad a numeral to four digits, as `%Y` in `strftime` does. -/
def pad4 (n : Nat) : String :=
  if n < 10 then "000" ++ toString n
  else if n < 100 then "00" ++ toString n
  else if n < 1000 then "0" ++ toString n
  else toString n

/-- `date.strftime("%Y-%m-%d")`. -/
def Date.iso (d : Date) : String :=
  pad4 d.year ++ "-" ++ pad2 d.month ++ "-" ++ pad2 d.day

/-- An attribute value: `models.py` types `attributes` as
`Dict[str, Union[str, List[str]]]`. -/
inductive AttrVal where
  | str (s : String)
  | list (l : List String)
deriving DecidableEq

/-- The attributes mapping. Python dicts iterate in insertion order and have
unique keys, so they are modelled as association lists; the dict-uniqueness
of keys is tracked by the predicate `AttrsWF` where a proof needs it. -/
abbrev Attributes := List (String × AttrVal)

/-- Whitespace test used throughout: Python's `\s` / `str.split()` /
`str.strip()` whitespace, restricted to the characters the repository's data
actually contains. -/
def isWs (c : Char) : Bool := c.isWhitespace

/-- Fuel-driven worker for `findTags`; the fuel (initially the length of the
input) makes the recursion structural so that proofs can evaluate it. -/
def findTagsAux (marker : Char) : Nat → List Char → List String
  | 0, _ => []
  | _ + 1, [] => []
  | fuel + 1, c :: rest =>
    if c = marker then
      let tok := rest.takeWhile (fun ch => !isWs ch)
      if tok.isEmpty then findTagsAux marker fuel rest
      else ⟨tok⟩ :: findTagsAux marker fuel (rest.drop tok.length)
    else findTagsAux marker fuel rest

/-- `re.findall(r"\+(\S+)", s)` (for `marker = '+'`) and
`re.findall(r"@(\S+)", s)` (for `marker = '@'`) from
`Task.refresh_metadata`: left-to-right non-overlapping matches, the captured
group being the maximal non-whitespace run after the marker. -/
def findTags (marker : Char) (s : List Char) : List String :=
  findTagsAux marker s.length s

/-- The `Task` dataclass of `models.py` (field defaults in Python:
`is_completed=False`, the options `None`, the lists/dict empty). -/
structure Task where
  description : String
  is_completed : Bool
  priority : Option String
  creation_date : Option Date
  completion_date : Option Date
  projects : List String
  contexts : List String
  attributes : Attributes
deriving DecidableEq

/-- `Task.refresh_metadata`: re-extract `+`/`@` tags from the description. -/
def Task.refreshMetadata (t : Task) : Task :=
  { t with
    projects := findTags '+' t.description.data
    contexts := findTags '@' t.description.data }

/-- Constructing a `Task`: the dataclass runs `__post_init__`, which calls
`refresh_metadata` exactly when both the supplied `projects` and `contexts`
are empty. -/
def mkTask (description : String) (is_completed : Bool)
    (priority : Option String) (creation_date : Option Date)
    (completion_date : Option Date) (projects : List String)
    (contexts : List String) (attributes : Attributes) : Task :=
  let t : Task := ⟨description, is_completed, priority, creation_date,
    completion_date, projects, contexts, attributes⟩
  if projects = [] ∧ contexts = [] then t.refreshMetadata else t

/-- A task as the service layer creates it: `Task(description)` with all
other fields defaulted. -/
def mkTask0 (description : String) : Task :=
  mkTask description false none none none [] [] []

/-- The `Task.id` property: read `attributes["cmid"]`; a list yields its
first element (or `None` when empty), a scalar string is returned as is,
a missing key yields `None`. -/
def Task.id (t : Task) : Option String :=
  match t.attributes.lookup "cmid" with
  | some (.list l) => l.head?
  | some (.str s) => some s
  | none => none

/-- `Task.complete()`: sets `is_completed` and stamps `completion_date` with
the current date (`date.today()` is passed in as `today`). -/
def Task.complete (t : Task) (today : Date) : Task :=
  { t with is_completed := true, completion_date := some today }

/-- `Task.reopen()`: clears `is_completed` and `completion_date`. -/
def Task.reopen (t : Task) : Task :=
  { t with is_completed := false, completion_date := none }

/-- One `complete()`/`reopen()` call, for reasoning about call sequences. -/
inductive TaskOp where
  | complete (today : Date)
  | reopen
deriving DecidableEq

/-- Apply one `TaskOp`. -/
def applyOp (t : Task) : TaskOp → Task
  | .complete d => t.complete d
  | .reopen => t.reopen

/-- Apply a sequence of `complete()`/`reopen()` calls, first element first. -/
def applyOps (t : Task) (ops : List TaskOp) : Task :=
  ops.foldl applyOp t

/-- C4: after any non-empty sequence of `complete()`/`reopen()` calls,
`completion_date` is set iff `is_completed` is true; `complete()` always sets
`is_completed := true` and resets `completion_date` to the date of this call
(also when the task was already completed), and `reopen()` always clears
both. -/
theorem complete_reopen_invariant :
    (∀ (t : Task) (ops : List TaskOp), ops ≠ [] →
      ((applyOps t ops).completion_date.isSome ↔
        (applyOps t ops).is_completed = true)) ∧
    (∀ (t : Task) (d : Date),
      (t.complete d).is_completed = true ∧
      (t.complete d).completion_date = some d) ∧
    (∀ t : Task,
      t.reopen.is_completed = false ∧ t.reopen.completion_date = none) := by
  refine ⟨?_, fun t d => ⟨rfl, rfl⟩, fun t => ⟨rfl, rfl⟩⟩
  intro t ops hne
  obtain ⟨init, last, rfl⟩ := (List.eq_nil_or_concat ops).resolve_left hne
  rw [applyOps, List.concat_eq_append, List.foldl_append]
  cases last with
  | complete d => simp [applyOp, Task.complete]
  | reopen => simp [applyOp, Task.reopen]

/-- C4 witness: a concrete completed-then-reopened run. -/
theorem complete_reopen_invariant_witness :
    ([TaskOp.complete ⟨2025, 10, 12⟩, TaskOp.reopen] ≠ ([] : List TaskOp)) ∧
    ((applyOps (mkTask0 "buy milk")
        [TaskOp.complete ⟨2025, 10, 12⟩, TaskOp.reopen]).completion_date.isSome ↔
      (applyOps (mkTask0 "buy milk")
        [TaskOp.complete ⟨2025, 10, 12⟩, TaskOp.reopen]).is_completed = true) :=
  ⟨by decide,
    complete_reopen_invariant.1 (mkTask0 "buy milk")
      [TaskOp.complete ⟨2025, 10, 12⟩, TaskOp.reopen] (by decide)⟩

/-- C8: the constructor re-extracts `+`/`@` metadata from the description
exactly when both supplied lists are empty; explicitly supplied non-empty
lists are kept as given (and can therefore disagree with the tokens in the
description) until `refresh_metadata()` is called. -/
theorem post_init_metadata :
    (∀ (d : String) (b : Bool) (p : Option String) (cd cp : Option Date)
        (pr cx : List String) (a : Attributes), pr = [] → cx = [] →
      (mkTask d b p cd cp pr cx a).projects = findTags '+' d.data ∧
      (mkTask d b p cd cp pr cx a).contexts = findTags '@' d.data) ∧
    (∀ (d : String) (b : Bool) (p : Option String) (cd cp : Option Date)
        (pr cx : List String) (a : Attributes), ¬(pr = [] ∧ cx = []) →
      (mkTask d b p cd cp pr cx a).projects = pr ∧
      (mkTask d b p cd cp pr cx a).contexts = cx) ∧
    ((mkTask "call +alpha @home" false none none none ["beta"] [] []).projects
        = ["beta"] ∧
      ["beta"] ≠ findTags '+' ("call +alpha @home" : String).data ∧
      ((mkTask "call +alpha @home" false none none none
          ["beta"] [] []).refreshMetadata).projects = ["alpha"]) := by
  refine ⟨?_, ?_, by decide, by decide, by decide⟩
  · intro d b p cd cp pr cx a hp hc
    simp [mkTask, hp, hc, Task.refreshMetadata]
  · intro d b p cd cp pr cx a h
    simp [mkTask, h]

/-- C8 witness: the characterizations applied at concrete inputs. -/
theorem post_init_metadata_witness :
    (mkTask "do +x" false none none none [] [] []).projects
        = findTags '+' ("do +x" : String).data ∧
    (mkTask "do +x" false none none none ["y"] [] []).projects = ["y"] :=
  ⟨(post_init_metadata.1 "do +x" false none none none [] [] [] rfl rfl).1,
    (post_init_metadata.2.1 "do +x" false none none none ["y"] [] []
      (by simp)).1⟩

/-- C10: the `Task.id` accessor is total (it is a Lean function) and returns
`none` when `cmid` is absent or maps to an empty list, the first element when
`cmid` maps to a non-empty list, and the stored string when `cmid` maps to a
scalar. -/
theorem task_id_total (t : Task) :
    (t.attributes.lookup "cmid" = none → t.id = none) ∧
    (∀ s, t.attributes.lookup "cmid" = some (.str s) → t.id = some s) ∧
    (t.attributes.lookup "cmid" = some (.list []) → t.id = none) ∧
    (∀ x l, t.attributes.lookup "cmid" = some (.list (x :: l)) →
      t.id = some x) := by
  refine ⟨fun h => ?_, fun s h => ?_, fun h => ?_, fun x l h => ?_⟩ <;>
    simp [Task.id, h]

/-- C10 witness: the four cases at concrete tasks. -/
theorem task_id_total_witness :
    (mkTask0 "a").id = none ∧
    (mkTask "a" false none none none [] [] [("cmid", .str "s1")]).id
      = some "s1" ∧
    (mkTask "a" false none none none [] [] [("cmid", .list [])]).id = none ∧
    (mkTask "a" false none none none [] [] [("cmid", .list ["x1", "x2"])]).id
      = some "x1" :=
  ⟨(task_id_total (mkTask0 "a")).1 (by decide),
    (task_id_total (mkTask "a" false none none none [] []
        [("cmid", .str "s1")])).2.1 "s1" (by decide),
    (task_id_total (mkTask "a" false none none none [] []
        [("cmid", .list [])])).2.2.1 (by decide),
    (task_id_total (mkTask "a" false none none none [] []
        [("cmid", .list ["x1", "x2"])])).2.2.2 "x1" ["x2"] (by decide)⟩

/-! ### View engine: filtering (`TaskList` in `widgets/task_list.py`) -/

/-- `TaskList.is_filtered`: true when either filter set is non-empty. The
filter sets are modelled as lists (the widget stores Python `set`s built from
lists; only membership is used, so list membership is an exact model). -/
def isFiltered (fc fp : List String) : Bool :=
  !fc.isEmpty || !fp.isEmpty

/-- `TaskList._task_matches_filter`: no active filter accepts everything;
otherwise a non-empty context filter accepts on any shared context, a
non-empty project filter accepts on any shared project, and a task matching
neither is rejected. -/
def taskMatchesFilter (fc fp : List String) (t : Task) : Bool :=
  if !(isFiltered fc fp) then true
  else if !fc.isEmpty && t.contexts.any (fun c => fc.contains c) then true
  else if !fp.isEmpty && t.projects.any (fun p => fp.contains p) then true
  else false

/-- `TaskList.rebuild_layout` mounts, in order, exactly the tasks accepted by
`_task_matches_filter`. -/
def filterTasks (fc fp : List String) (ts : List Task) : List Task :=
  ts.filter (taskMatchesFilter fc fp)

/-- C5: with both filter sets empty the filter keeps every task unchanged in
order; otherwise a task is kept iff its contexts intersect the context set OR
its projects intersect the project set; the output is always an
order-preserving subsequence of the input. -/
theorem taskMatchesFilter_active (fc fp : List String) (t : Task)
    (hf : isFiltered fc fp = true) :
    taskMatchesFilter fc fp t
      = ((!fc.isEmpty && t.contexts.any fun c => fc.contains c)
        || (!fp.isEmpty && t.projects.any fun p => fp.contains p)) := by
  unfold taskMatchesFilter
  rw [hf]
  cases h1 : (!fc.isEmpty && t.contexts.any fun c => fc.contains c) <;>
    cases h2 : (!fp.isEmpty && t.projects.any fun p => fp.contains p) <;>
      simp

theorem filter_semantics (fc fp : List String) (ts : List Task) :
    (fc = [] → fp = [] → filterTasks fc fp ts = ts) ∧
    (¬(fc = [] ∧ fp = []) → ∀ t, taskMatchesFilter fc fp t = true ↔
      ((∃ c ∈ t.contexts, c ∈ fc) ∨ (∃ p ∈ t.projects, p ∈ fp))) ∧
    (filterTasks fc fp ts).Sublist ts := by
  refine ⟨?_, ?_, List.filter_sublist ts⟩
  · intro hc hp
    subst hc; subst hp
    simp [filterTasks, taskMatchesFilter, isFiltered]
  · intro h t
    have hf : isFiltered fc fp = true := by
      rcases Decidable.em (fc = []) with hc | hc
      · rcases Decidable.em (fp = []) with hp | hp
        · exact absurd ⟨hc, hp⟩ h
        · simp [isFiltered, List.isEmpty_iff, hp]
      · simp [isFiltered, List.isEmpty_iff, hc]
    rw [taskMatchesFilter_active fc fp t hf]
    constructor
    · intro hm
      simp only [Bool.or_eq_true, Bool.and_eq_true, List.any_eq_true] at hm
      rcases hm with ⟨_, c, hc1, hc2⟩ | ⟨_, p, hp1, hp2⟩
      · exact Or.inl ⟨c, hc1, by simpa using hc2⟩
      · exact Or.inr ⟨p, hp1, by simpa using hp2⟩
    · rintro (⟨c, hc1, hc2⟩ | ⟨p, hp1, hp2⟩)
      · simp only [Bool.or_eq_true, Bool.and_eq_true, List.any_eq_true]
        exact Or.inl ⟨by simpa using List.ne_nil_of_mem hc2, c, hc1,
          by simpa using hc2⟩
      · simp only [Bool.or_eq_true, Bool.and_eq_true, List.any_eq_true]
        exact Or.inr ⟨by simpa using List.ne_nil_of_mem hp2, p, hp1,
          by simpa using hp2⟩

/-- C5 witness: the OR semantics at a concrete task (context mismatch,
project match) and the empty filter as identity. -/
theorem filter_semantics_witness :
    filterTasks [] [] [mkTask0 "go @home +shopping"]
        = [mkTask0 "go @home +shopping"] ∧
    (taskMatchesFilter ["work"] ["shopping"] (mkTask0 "go @home +shopping")
        = true ↔
      ((∃ c ∈ (mkTask0 "go @home +shopping").contexts, c ∈ ["work"]) ∨
        (∃ p ∈ (mkTask0 "go @home +shopping").projects,
          p ∈ ["shopping"]))) :=
  ⟨(filter_semantics [] [] [mkTask0 "go @home +shopping"]).1 rfl rfl,
    (filter_semantics ["work"] ["shopping"] []).2.1 (by simp)
      (mkTask0 "go @home +shopping")⟩

/-! ### View engine: sorting by priority (`TaskList.apply_sort`) -/

/-- The Python sort key `lambda t: (t.priority is None, t.priority or "")`. -/
def priorityKey (t : Task) : Bool × String :=
  (t.priority.isNone, t.priority.getD "")

/-- Lexicographic comparison of characters by code point, as Python compares
strings. -/
def listLe : List Char → List Char → Bool
  | [], _ => true
  | _ :: _, [] => false
  | a :: as, b :: bs =>
    if a.toNat < b.toNat then true
    else if b.toNat < a.toNat then false
    else listLe as bs

/-- Python `<=` on strings. -/
def strLe (a b : String) : Bool := listLe a.data b.data

/-- Python `<=` on `(bool, str)` tuples: lexicographic, with
`False < True`. -/
def keyLe (k l : Bool × String) : Bool :=
  (!k.1 && l.1) || (k.1 == l.1 && strLe k.2 l.2)

/-- The total preorder `sorted` uses on tasks when sorting by priority. -/
def taskLe (a b : Task) : Prop := keyLe (priorityKey a) (priorityKey b) = true

instance : DecidableRel taskLe := fun a b => by
  unfold taskLe; infer_instance

theorem listLe_cons_iff {x y : Char} {xs ys : List Char} :
    listLe (x :: xs) (y :: ys) = true ↔
      (x.toNat < y.toNat ∨ (x.toNat = y.toNat ∧ listLe xs ys = true)) := by
  simp only [listLe]
  split_ifs with h1 h2
  · simp [h1]
  · constructor
    · intro h; simp at h
    · rintro (h | ⟨h, _⟩) <;> omega
  · have hxy : x.toNat = y.toNat := by omega
    simp [hxy, Nat.lt_irrefl]

theorem listLe_refl (a : List Char) : listLe a a = true := by
  induction a with
  | nil => rfl
  | cons x xs ih => rw [listLe_cons_iff]; exact Or.inr ⟨rfl, ih⟩

theorem listLe_total (a b : List Char) :
    listLe a b = true ∨ listLe b a = true := by
  induction a generalizing b with
  | nil => left; rfl
  | cons x xs ih =>
    cases b with
    | nil => right; rfl
    | cons y ys =>
      rw [listLe_cons_iff, listLe_cons_iff]
      rcases Nat.lt_trichotomy x.toNat y.toNat with h | h | h
      · exact Or.inl (Or.inl h)
      · rcases ih ys with h' | h'
        · exact Or.inl (Or.inr ⟨h, h'⟩)
        · exact Or.inr (Or.inr ⟨h.symm, h'⟩)
      · exact Or.inr (Or.inl h)

theorem listLe_trans {a b c : List Char} (h1 : listLe a b = true)
    (h2 : listLe b c = true) : listLe a c = true := by
  induction a generalizing b c with
  | nil => rfl
  | cons x xs ih =>
    cases b with
    | nil => simp [listLe] at h1
    | cons y ys =>
      cases c with
      | nil => simp [listLe] at h2
      | cons z zs =>
        rw [listLe_cons_iff] at h1 h2 ⊢
        rcases h1 with h1 | ⟨h1e, h1t⟩
        · rcases h2 with h2 | ⟨h2e, _⟩
          · exact Or.inl (Nat.lt_trans h1 h2)
          · exact Or.inl (h2e ▸ h1)
        · rcases h2 with h2 | ⟨h2e, h2t⟩
          · exact Or.inl (h1e ▸ h2)
          · exact Or.inr ⟨h1e.trans h2e, ih h1t h2t⟩

theorem keyLe_total (k l : Bool × String) :
    keyLe k l = true ∨ keyLe l k = true := by
  obtain ⟨kb, ks⟩ := k
  obtain ⟨lb, ls⟩ := l
  cases kb <;> cases lb <;>
    rcases listLe_total ks.data ls.data with h | h <;>
      simp [keyLe, strLe, h]

theorem keyLe_trans {k l m : Bool × String} (h1 : keyLe k l = true)
    (h2 : keyLe l m = true) : keyLe k m = true := by
  obtain ⟨kb, ks⟩ := k
  obtain ⟨lb, ls⟩ := l
  obtain ⟨mb, ms⟩ := m
  cases kb <;> cases lb <;> cases mb <;>
    simp_all [keyLe, strLe] <;> exact listLe_trans h1 h2

instance : IsTotal Task taskLe :=
  ⟨fun a b => keyLe_total (priorityKey a) (priorityKey b)⟩

instance : IsTrans Task taskLe :=
  ⟨fun _ _ _ hab hbc => keyLe_trans hab hbc⟩

/-- `sorted(tasks, key=...)` is a stable sort by a total preorder on keys;
any stable sort agrees with insertion sort on such a preorder, so the model
uses insertion sort (stability is proved below as part of C6). -/
def applySortPriority (ts : List Task) : List Task :=
  List.insertionSort taskLe ts

/-- The ordering C6 asserts between adjacent output tasks: a task with a
priority sorts before one without, and two priorities compare as strings. -/
def priorityOrd (a b : Task) : Prop :=
  match a.priority, b.priority with
  | some x, some y => strLe x y = true
  | some _, none => True
  | none, some _ => False
  | none, none => True

theorem taskLe_priorityOrd {a b : Task} (h : taskLe a b) : priorityOrd a b := by
  unfold taskLe keyLe priorityKey at h
  unfold priorityOrd
  cases ha : a.priority with
  | none => cases hb : b.priority with
    | none => trivial
    | some y => simp [ha, hb] at h
  | some x => cases hb : b.priority with
    | none => trivial
    | some y => simpa [ha, hb] using h

theorem keys_eq_taskLe {a b : Task} (h : priorityKey a = priorityKey b) :
    taskLe a b := by
  unfold taskLe keyLe
  rw [h]
  simp [strLe, listLe_refl]

theorem filter_orderedInsert (k : Bool × String) (a : Task) (m : List Task) :
    (List.orderedInsert taskLe a m).filter (fun t => priorityKey t == k)
      = if priorityKey a == k
        then a :: m.filter (fun t => priorityKey t == k)
        else m.filter (fun t => priorityKey t == k) := by
  induction m with
  | nil =>
    cases hpa : priorityKey a == k <;>
      simp [List.orderedInsert, List.filter, hpa]
  | cons b m ih =>
    by_cases hr : taskLe a b
    · rw [List.orderedInsert_of_le _ _ hr]
      by_cases hpa : priorityKey a == k
      · simp [List.filter, hpa]
      · simp [List.filter, hpa]
    · have : List.orderedInsert taskLe a (b :: m)
          = b :: List.orderedInsert taskLe a m := by
        simp [List.orderedInsert, hr]
      rw [this]
      by_cases hpa : priorityKey a == k
      · have hpb : ¬(priorityKey b == k) := by
          intro hpb
          apply hr
          apply keys_eq_taskLe
          have h1 : priorityKey a = k := by simpa using hpa
          have h2 : priorityKey b = k := by simpa using hpb
          rw [h1, h2]
        simp only [List.filter_cons, ih]
        simp [hpa, hpb]
      · simp only [List.filter_cons, ih]
        by_cases hpb : priorityKey b == k <;> simp [hpa, hpb]

theorem sort_stable (k : Bool × String) (ts : List Task) :
    (applySortPriority ts).filter (fun t => priorityKey t == k)
      = ts.filter (fun t => priorityKey t == k) := by
  induction ts with
  | nil => rfl
  | cons a ts ih =>
    unfold applySortPriority at ih ⊢
    rw [show List.insertionSort taskLe (a :: ts)
      = List.orderedInsert taskLe a (List.insertionSort taskLe ts) from rfl]
    rw [filter_orderedInsert]
    cases hpa : priorityKey a == k <;>
      simp [List.filter_cons, hpa, ih]

/-- C6: sorting by priority permutes the input; in the output every task with
a priority comes before every task without one and priorities appear in
ascending string order (`priorityOrd` holds pairwise); the sort is stable
(each key class keeps its input order); and the spec's concrete example
sorts as stated. -/
theorem sort_priority_semantics :
    (∀ ts : List Task, (applySortPriority ts).Perm ts ∧
      (applySortPriority ts).Pairwise priorityOrd ∧
      (∀ k, (applySortPriority ts).filter (fun t => priorityKey t == k)
        = ts.filter (fun t => priorityKey t == k))) ∧
    (applySortPriority
        [mkTask "Task A" false none none none [] [] [],
          mkTask "Task B" false (some "B") none none [] [] [],
          mkTask "Task C" false (some "A") none none [] [] []]
      = [mkTask "Task C" false (some "A") none none [] [] [],
          mkTask "Task B" false (some "B") none none [] [] [],
          mkTask "Task A" false none none none [] [] []]) := by
  constructor
  · intro ts
    refine ⟨List.perm_insertionSort taskLe ts, ?_, fun k => sort_stable k ts⟩
    exact (List.sorted_insertionSort taskLe ts).imp
      (fun h => taskLe_priorityOrd h)
  · decide

/-! ### Service layer validation (`services.py`) -/

/-- Python `str.strip()`: drop leading and trailing whitespace. -/
def strStrip (s : String) : String :=
  ⟨((s.data.dropWhile isWs).reverse.dropWhile isWs).reverse⟩

/-- Python `str.upper()` restricted to the ASCII range the service data
uses. -/
def strUpper (s : String) : String :=
  ⟨s.data.map Char.toUpper⟩

/-- The test inside `TodoService._validate_priority`:
`len(p) == 1 and p.isalpha() and p.isupper()` (for a single character this is
"is an uppercase letter"; ASCII model of the Python predicates). -/
def validPriority (p : String) : Bool :=
  match p.data with
  | [c] => c.isAlpha && c.isUpper
  | _ => false

/-- `TodoService._validate_priority` raises exactly when the argument is a
non-empty string failing `validPriority` (Python truthiness: `None` and `""`
are both falsy and therefore not validated). -/
def priorityRaises (p : Option String) : Bool :=
  match p with
  | some q => q ≠ "" && !validPriority q
  | none => false

/-- Replace the value stored under `k`, or append the binding if the key is
new — dict assignment `m[k] = v` on the association-list model. -/
def dictSet (m : Attributes) (k : String) (v : AttrVal) : Attributes :=
  if m.any (fun p => p.1 == k) then
    m.map (fun p => if p.1 == k then (p.1, v) else p)
  else m ++ [(k, v)]

/-- The `Task.due_date` setter: `None` deletes the `due` key, a date stores
its ISO string. -/
def Task.setDueDate (t : Task) (v : Option Date) : Task :=
  match v with
  | none => { t with attributes := t.attributes.filter (fun p => p.1 ≠ "due") }
  | some d => { t with attributes := dictSet t.attributes "due" (.str d.iso) }

/-- The conditional uppercasing `if priority: priority = priority.upper()`
that `create_task`/`update_task` perform before validating. -/
def upperIfTruthy (p : String) : String :=
  if p ≠ "" then strUpper p else p

/-- `TodoService.create_task`: validate the description (non-empty after
strip) and the priority (uppercased first when non-empty), then build the
task, stamp `creation_date := today`, apply the due date, and hand the task
to `repository.save`. `none` models a raised `TaskValidationError` (no
repository I/O happens); `some t` is the task passed to `save`. -/
def createTask (description : String) (priority : Option String)
    (due_date : Option Date) (today : Date) : Option Task :=
  if description = "" ∨ strStrip description = "" then none
  else
    let priority := priority.map upperIfTruthy
    if priorityRaises priority then none
    else
      let task := mkTask description false priority none none [] [] []
      let task := { task with creation_date := some today }
      let task := match due_date with
        | some d => task.setDueDate (some d)
        | none => task
      some task

/-- The tail of `update_task`: due-date assignment and final
`refresh_metadata`. -/
def updateTaskStep3 (task : Task) (descSupplied : Bool)
    (due_date : Option Date) : Task × Bool :=
  let task := match due_date with
    | some d => task.setDueDate (some d)
    | none => task
  let task := if descSupplied then task.refreshMetadata else task
  (task, false)

/-- The part of `update_task` after the description check/assignment:
priority normalization+validation+assignment, due-date assignment, and the
final `refresh_metadata` (run only when a description was supplied). -/
def updateTaskStep2 (task : Task) (descSupplied : Bool)
    (priority : Option String) (due_date : Option Date) : Task × Bool :=
  match priority with
  | some p =>
    let p := upperIfTruthy p
    if priorityRaises (some p) then (task, true)
    else
      let task := { task with priority := if p ≠ "" then some p else none }
      updateTaskStep3 task descSupplied due_date
  | none => updateTaskStep3 task descSupplied due_date

/-- `TodoService.update_task`. The Python function mutates `task` in place
and may raise midway, so the model returns the task state at exit together
with a flag recording whether a `TaskValidationError` was raised (`true` =
raised; the repository `save` happens only when the flag is `false`). -/
def updateTask (task : Task) (description : Option String)
    (priority : Option String) (due_date : Option Date) : Task × Bool :=
  match description with
  | some d =>
    if strStrip d = "" then (task, true)
    else updateTaskStep2 { task with description := d } true priority due_date
  | none => updateTaskStep2 task false priority due_date

theorem strUpper_empty_iff (q : String) : strUpper q = "" ↔ q = "" := by
  cases q with
  | mk data =>
    cases data with
    | nil => exact ⟨fun _ => rfl, fun _ => rfl⟩
    | cons c cs =>
      constructor
      · intro h
        have hd := congrArg String.data h
        simp [strUpper] at hd
      · intro h
        have hd := congrArg String.data h
        simp at hd

theorem priorityRaises_upper (q : String) :
    priorityRaises (some (upperIfTruthy q))
      = (q ≠ "" && !validPriority (strUpper q)) := by
  by_cases hq : q = ""
  · subst hq
    simp [upperIfTruthy, priorityRaises]
  · have hsu : strUpper q ≠ "" := fun h => hq ((strUpper_empty_iff q).mp h)
    simp [upperIfTruthy, priorityRaises, hq, hsu]

theorem updateTaskStep3_flag (t : Task) (b : Bool) (due : Option Date) :
    (updateTaskStep3 t b due).2 = false := by
  unfold updateTaskStep3
  cases due <;> cases b <;> rfl

theorem updateTaskStep2_flag (t : Task) (b : Bool) (p : Option String)
    (due : Option Date) :
    (updateTaskStep2 t b p due).2
      = (match p with
        | some q => q ≠ "" && !validPriority (strUpper q)
        | none => false) := by
  cases p with
  | none => simpa using updateTaskStep3_flag t b due
  | some q =>
    simp only [updateTaskStep2]
    rw [priorityRaises_upper]
    by_cases hq0 : q = ""
    · subst hq0
      simp [updateTaskStep3_flag]
    · by_cases hv : validPriority (strUpper q) = true
      · simp [hq0, hv, updateTaskStep3_flag]
      · have hv' := Bool.eq_false_iff.mpr (fun h => hv h)
        simp [hq0, hv']

/-- C7 as stated is false: the supplied priority `"b"` is not exactly one
uppercase letter, yet `create_task("x", priority="b")` raises no validation
error — the service uppercases the priority before validating it. -/
theorem create_task_lowercase_counterexample :
    (createTask "x" (some "b") none ⟨2025, 10, 12⟩).isSome = true ∧
    validPriority "b" = false ∧
    (createTask "x" (some "b") none ⟨2025, 10, 12⟩).map Task.priority
      = some (some "B") := by
  decide

/-- C7 (amended): task creation and update raise a validation error — before
any repository I/O, which in this model happens only on the non-error
results — exactly when the supplied description is empty after trimming, or
when the supplied priority is non-empty and, after the service's uppercasing,
is not exactly one uppercase letter (an empty-string priority counts as
absent); when no error is raised the resulting task is handed to `save`. -/
theorem validation_semantics (d : String) (p : Option String)
    (due : Option Date) (today : Date) (t : Task) (descr : Option String) :
    ((createTask d p due today = none) ↔
      (strStrip d = "" ∨
        ∃ q, p = some q ∧ q ≠ "" ∧ validPriority (strUpper q) = false)) ∧
    ((updateTask t descr p due).2 = true ↔
      ((∃ dd, descr = some dd ∧ strStrip dd = "") ∨
        ∃ q, p = some q ∧ q ≠ "" ∧ validPriority (strUpper q) = false)) := by
  constructor
  · unfold createTask
    by_cases hd : d = "" ∨ strStrip d = ""
    · rw [if_pos hd]
      have hd' : strStrip d = "" := by
        rcases hd with hd | hd
        · rw [hd]; rfl
        · exact hd
      simp [hd']
    · rw [if_neg hd]
      push_neg at hd
      cases p with
      | none => simp [priorityRaises, hd.2]
      | some q =>
        simp only [Option.map_some']
        rw [priorityRaises_upper]
        by_cases hq : q = ""
        · subst hq
          simp [hd.2]
        · by_cases hv : validPriority (strUpper q) = true
          · simp [hq, hv, hd.2]
          · have hv' : validPriority (strUpper q) = false :=
              Bool.eq_false_iff.mpr (fun h => hv h)
            simp [hq, hv', hd.2]
  · cases descr with
    | none =>
      show (updateTaskStep2 t false p due).2 = true ↔ _
      rw [updateTaskStep2_flag]
      cases p with
      | none => simp
      | some q =>
        by_cases hq : q = ""
        · subst hq; simp
        · by_cases hv : validPriority (strUpper q) = true
          · simp [hq, hv]
          · have hv' : validPriority (strUpper q) = false :=
              Bool.eq_false_iff.mpr (fun h => hv h)
            simp [hq, hv']
    | some dd =>
      show (if strStrip dd = "" then (t, true) else _).2 = true ↔ _
      by_cases hdd : strStrip dd = ""
      · simp [hdd]
      · rw [if_neg hdd]
        rw [updateTaskStep2_flag]
        cases p with
        | none => simp [hdd]
        | some q =>
          by_cases hq : q = ""
          · subst hq; simp [hdd]
          · by_cases hv : validPriority (strUpper q) = true
            · simp [hq, hv, hdd]
            · have hv' : validPriority (strUpper q) = false :=
                Bool.eq_false_iff.mpr (fun h => hv h)
              simp [hq, hv', hdd]

/-- C7 witness: the amended characterization applied at concrete inputs
(valid creation, empty description, malformed two-letter priority). -/
theorem validation_semantics_witness :
    ((createTask "Buy milk" (some "a") none ⟨2025, 10, 12⟩ = none) ↔
      (strStrip "Buy milk" = "" ∨
        ∃ q, (some "a" : Option String) = some q ∧ q ≠ "" ∧
          validPriority (strUpper q) = false)) ∧
    ((updateTask (mkTask0 "old") (some "  ") (some "AB") none).2 = true ↔
      ((∃ dd, (some "  " : Option String) = some dd ∧ strStrip dd = "") ∨
        ∃ q, (some "AB" : Option String) = some q ∧ q ≠ "" ∧
          validPriority (strUpper q) = false)) :=
  ⟨(validation_semantics "Buy milk" (some "a") none ⟨2025, 10, 12⟩
      (mkTask0 "old") (some "  ")).1,
    (validation_semantics "old" (some "AB") none ⟨2025, 10, 12⟩
      (mkTask0 "old") (some "  ")).2⟩

/-- C9: in `update_task`, `priority=None` leaves the task's priority
unchanged (whatever else is passed), the empty string clears it, a valid
letter is stored in uppercased form, and an invalid non-empty priority
raises the validation error only after a supplied non-empty description has
already been assigned to the in-memory task (the priority itself is left
unchanged). -/
theorem update_task_priority_semantics (t : Task) (due : Option Date) :
    (∀ descr, (updateTask t descr none due).1.priority = t.priority) ∧
    ((updateTask t none (some "") due).1.priority = none ∧
      (updateTask t none (some "") due).2 = false) ∧
    (∀ p, validPriority (strUpper p) = true →
      (updateTask t none (some p) due).1.priority = some (strUpper p) ∧
      (updateTask t none (some p) due).2 = false) ∧
    (∀ d p, strStrip d ≠ "" → p ≠ "" → validPriority (strUpper p) = false →
      (updateTask t (some d) (some p) due).2 = true ∧
      (updateTask t (some d) (some p) due).1.description = d ∧
      (updateTask t (some d) (some p) due).1.priority = t.priority) := by
  refine ⟨?_, ?_, ?_, ?_⟩
  · intro descr
    cases descr with
    | none =>
      show (updateTaskStep2 t false none due).1.priority = _
      unfold updateTaskStep2 updateTaskStep3
      cases due <;> simp [Task.setDueDate, Task.refreshMetadata]
    | some d =>
      by_cases hd : strStrip d = ""
      · simp [updateTask, hd]
      · show (if strStrip d = "" then (t, true)
          else updateTaskStep2 _ true none due).1.priority = _
        rw [if_neg hd]
        unfold updateTaskStep2 updateTaskStep3
        cases due <;> simp [Task.setDueDate, Task.refreshMetadata]
  · constructor
    · show (updateTaskStep2 t false (some "") due).1.priority = none
      unfold updateTaskStep2 updateTaskStep3
      simp only [upperIfTruthy, priorityRaises]
      cases due <;> simp [Task.setDueDate, Task.refreshMetadata]
    · show (updateTaskStep2 t false (some "") due).2 = false
      rw [updateTaskStep2_flag]
      simp
  · intro p hv
    have hp : p ≠ "" := by
      intro h
      subst h
      simp [strUpper, validPriority] at hv
    have hsu : strUpper p ≠ "" := fun h => hp ((strUpper_empty_iff p).mp h)
    constructor
    · show (updateTaskStep2 t false (some p) due).1.priority = _
      unfold updateTaskStep2 updateTaskStep3
      simp only [upperIfTruthy, priorityRaises, hp, if_true, hv]
      cases due <;> simp [Task.setDueDate, Task.refreshMetadata, hp, hsu, hv]
    · show (updateTaskStep2 t false (some p) due).2 = false
      rw [updateTaskStep2_flag]
      simp [hv]
  · intro d p hd hp hv
    have h2 : updateTask t (some d) (some p) due
        = updateTaskStep2 { t with description := d } true (some p) due := by
      show (if strStrip d = "" then (t, true) else _) = _
      rw [if_neg hd]
    have hflag : (updateTaskStep2 { t with description := d } true
        (some p) due) = ({ t with description := d }, true) := by
      unfold updateTaskStep2
      have : priorityRaises (some (upperIfTruthy p)) = true := by
        rw [priorityRaises_upper]
        simp [hp, hv]
      simp [this]
    rw [h2, hflag]
    exact ⟨rfl, rfl, rfl⟩

/-- C9 witness: the four behaviours at concrete inputs. -/
theorem update_task_priority_semantics_witness :
    (updateTask (mkTask "t" false (some "C") none none [] [] []) none none
        none).1.priority = some "C" ∧
    (updateTask (mkTask "t" false (some "C") none none [] [] []) none
        (some "") none).1.priority = none ∧
    (updateTask (mkTask "t" false (some "C") none none [] [] []) none
        (some "b") none).1.priority = some (strUpper "b") ∧
    ((updateTask (mkTask "t" false (some "C") none none [] [] [])
        (some "new text") (some "AB") none).2 = true ∧
      (updateTask (mkTask "t" false (some "C") none none [] [] [])
        (some "new text") (some "AB") none).1.description = "new text") := by
  have h := update_task_priority_semantics
    (mkTask "t" false (some "C") none none [] [] []) none
  refine ⟨h.1 none, h.2.1.1, (h.2.2.1 "b" (by decide)).1, ?_, ?_⟩
  · exact (h.2.2.2 "new text" "AB" (by decide) (by decide) (by decide)).1
  · exact (h.2.2.2 "new text" "AB" (by decide) (by decide) (by decide)).2.1

/-! ### Python string primitives used by the line codec -/

/-- Fuel-driven worker for `replAll` (Python `str.replace(pat, "")`). The
fuel (initially the input length) makes the recursion structural. -/
def replAllAux (pat : List Char) : Nat → List Char → List Char
  | 0, s => s
  | _ + 1, [] => []
  | fuel + 1, c :: cs =>
    if pat ≠ [] ∧ pat <+: (c :: cs) then
      replAllAux pat fuel ((c :: cs).drop pat.length)
    else c :: replAllAux pat fuel cs

/-- Python `s.replace(pat, "")`: delete the left-to-right non-overlapping
occurrences of `pat` (an empty pattern leaves the string unchanged, matching
`s.replace("", "") == s`). -/
def replAll (pat s : List Char) : List Char :=
  replAllAux pat s.length s

/-- Flush the accumulated (reversed) word of `splitWsAux`. -/
def flushAcc (acc : List Char) : List (List Char) :=
  if acc = [] then [] else [acc.reverse]

/-- Single-pass worker for Python `str.split()`: `acc` holds the current
word reversed. -/
def splitWsAux : List Char → List Char → List (List Char)
  | [], acc => flushAcc acc
  | c :: cs, acc =>
    if isWs c then flushAcc acc ++ splitWsAux cs []
    else splitWsAux cs (c :: acc)

/-- Python `s.split()`: the maximal non-whitespace runs of `s`, in order. -/
def splitWs (s : List Char) : List (List Char) :=
  splitWsAux s []

/-- `" ".join(words)` on character lists. -/
def joinSp : List (List Char) → List Char
  | [] => []
  | [w] => w
  | w :: ws => w ++ ' ' :: joinSp ws

/-- `" ".join(s.split())` — the whitespace normalization `_to_domain`
performs after stripping attribute tokens. -/
def normWs (s : List Char) : List Char :=
  joinSp (splitWs s)

/-! ### The stored-line model (`pytodotxt` interface) -/

/-- Modelled from the spec: §6 — a `key:value` attribute token is a word
containing a colon with a non-empty key before the first colon and a
non-empty value after it (the value may contain further colons but no
whitespace, being a single word). `pytodotxt` itself is an external
dependency not present in the repository; its parsing of attribute words is
modelled from the spec's grammar. -/
def wordAttr (w : List Char) : Option (String × String) :=
  let k := w.takeWhile (fun c => !(c == ':'))
  match w.drop k.length with
  | ':' :: v => if k ≠ [] ∧ v ≠ [] then some (⟨k⟩, ⟨v⟩) else none
  | _ => none

/-- Modelled from the spec: §6 — the `key:value` tokens found anywhere in a
line's description text, in encounter order (§3: "all values are kept in
encounter order"). -/
def parseAttrs (s : List Char) : List (String × String) :=
  (splitWs s).filterMap wordAttr

/-- Record one parsed `key:value` pair into the attributes dict: an existing
key appends to its value list, a new key is appended at the end (Python dict
insertion order). -/
def addAttr (m : List (String × List String)) (k v : String) :
    List (String × List String) :=
  if m.any (fun p => p.1 == k) then
    m.map (fun p => if p.1 == k then (p.1, p.2 ++ [v]) else p)
  else m ++ [(k, [v])]

/-- Group parsed pairs into the per-key value lists `pytodotxt` exposes as
the `attributes` dict. -/
def attrsDictOf (pairs : List (String × String)) :
    List (String × List String) :=
  pairs.foldl (fun m kv => addAttr m kv.1 kv.2) []

/-- Modelled from the spec: a stored todo.txt line in parsed form (a
`pytodotxt.Task`). §4.2/§6: the canonical serialization and the parser are
mutually inverse on canonical lines, so a line is represented by its parsed
content: completion flag, priority, the two dates, and the description text
(which, per §6, still contains the inline tags and the `key:value` attribute
tokens); the attribute dict and the tag lists are derived from the text. -/
structure PLine where
  is_completed : Bool
  priority : Option String
  creation_date : Option Date
  completion_date : Option Date
  description : String
deriving DecidableEq

/-- The `attributes` dict of a parsed line. -/
def PLine.attrs (p : PLine) : List (String × List String) :=
  attrsDictOf (parseAttrs p.description.data)

/-- The `projects` of a parsed line (`+` tags in the text). -/
def PLine.projTags (p : PLine) : List String :=
  findTags '+' p.description.data

/-- The `contexts` of a parsed line (`@` tags in the text). -/
def PLine.ctxTags (p : PLine) : List String :=
  findTags '@' p.description.data

/-- Normalize an attribute value to the list form `pytodotxt` works with
(`add_attribute` is called once per element of a list value, once with the
scalar otherwise). -/
def normVal : AttrVal → List String
  | .str s => [s]
  | .list l => l

/-- The `(key, value)` pairs `_to_pytodo` passes to `add_attribute`, in call
order. -/
def tokenPairs (a : Attributes) : List (String × String) :=
  a.flatMap (fun kv => (normVal kv.2).map (fun x => (kv.1, x)))

/-- The `key:value` token texts appended to the line by `add_attribute`, in
call order. -/
def tokenChars (a : Attributes) : List (List Char) :=
  (tokenPairs a).map (fun kv => kv.1.data ++ ':' :: kv.2.data)

/-- `FileTaskRepository._to_pytodo`: build a `pytodotxt` task from the
domain task's description (parsed as line text), copy the flag, priority and
dates, and `add_attribute` each attribute value, which appends a
space-separated `key:value` token to the text. -/
def toPytodo (t : Task) : PLine :=
  { is_completed := t.is_completed
    priority := t.priority
    creation_date := t.creation_date
    completion_date := t.completion_date
    description :=
      ⟨t.description.data ++ (tokenChars t.attributes).flatMap
        (fun tok => ' ' :: tok)⟩ }

/-- The token deletion loop of `_to_domain` (lines 82–88 of
`repository.py`): for each key and each of its values, delete every
occurrence of `"key:value"` from the description. -/
def stripAttrs (attrs : List (String × List String)) (d : List Char) :
    List Char :=
  attrs.foldl
    (fun acc kv =>
      kv.2.foldl (fun a v => replAll (kv.1.data ++ ':' :: v.data) a) acc)
    d

/-- `FileTaskRepository._to_domain`: copy the parsed attributes; when the
dict is non-empty, strip every `key:value` token from the description and
normalize whitespace; then build the domain `Task` (running
`__post_init__`) with the parsed projects/contexts and the attributes in
list form. -/
def toDomain (p : PLine) : Task :=
  let attrs := p.attrs
  let descr : String :=
    if attrs.isEmpty then p.description
    else ⟨normWs (stripAttrs attrs p.description.data)⟩
  mkTask descr p.is_completed p.priority p.creation_date p.completion_date
    p.projTags p.ctxTags (attrs.map (fun kv => (kv.1, AttrVal.list kv.2)))

/-! ### The repository (`FileTaskRepository.save` / `delete`) -/

/-- The id a stored line answers to in `_remove_by_id`: the first value of
its `cmid` attribute (`val[0] if val else None`; parsed attribute values are
always lists). -/
def lineId (p : PLine) : Option String :=
  match p.attrs.lookup "cmid" with
  | some vs => vs.head?
  | none => none

/-- `_remove_by_id`: drop every line whose id matches, and report whether
any matched (the file is rewritten only in that case, but an unchanged file
equals its filtered form, so the filter is taken unconditionally). -/
def removeById (lines : List PLine) (tid : String) : List PLine × Bool :=
  (lines.filter (fun l => !(lineId l == some tid)),
    lines.any (fun l => lineId l == some tid))

/-- `_remove_from_file`: drop every line whose text equals the given line
(text equality is equality of parsed lines, serialization being injective on
canonical lines), and report whether any matched. -/
def removeByText (lines : List PLine) (orig : PLine) : List PLine × Bool :=
  (lines.filter (fun l => !(l == orig)), lines.any (fun l => l == orig))

/-- The two backing files, as parsed lines in file order. -/
structure RepoState where
  todo : List PLine
  done : List PLine
deriving DecidableEq

/-- Step 1 of `save`: `if "cmid" not in task.attributes:` assign a fresh id
(`uuid.uuid4().hex[:8]`, passed in as `freshId`). -/
def genTask (task : Task) (freshId : String) : Task :=
  if task.attributes.lookup "cmid" = none then
    { task with attributes := task.attributes ++ [("cmid", .str freshId)] }
  else task

/-- The result of a `save`: the new file state, the (possibly id-assigned)
task object, and its updated `_original_text`. -/
structure SaveResult where
  state : RepoState
  task : Task
  orig : Option PLine

/-- The id-removal phase of `save`: with a truthy id, remove matching lines
from the active file; only when nothing matched there, from the completed
file. Returns the new state and whether anything was removed by id. -/
def saveRemovePhase (st : RepoState) (tid : Option String) :
    RepoState × Bool :=
  match tid with
  | some i =>
    if i ≠ "" then
      let r1 := removeById st.todo i
      if r1.2 then (⟨r1.1, st.done⟩, true)
      else
        let r2 := removeById st.done i
        (⟨r1.1, r2.1⟩, r2.2)
    else (st, false)
  | none => (st, false)

/-- The text-fallback phase of `save`: when nothing was removed by id and a
previous stored text is known, remove it from both files. -/
def saveFallbackPhase (st : RepoState) (removed : Bool)
    (orig : Option PLine) : RepoState :=
  if removed then st
  else
    match orig with
    | some o => ⟨(removeByText st.todo o).1, (removeByText st.done o).1⟩
    | none => st

/-- The append phase of `save`: add the encoded line to the file selected by
the completion flag. -/
def saveAppend (st : RepoState) (line : PLine) (completed : Bool) :
    RepoState :=
  if completed then ⟨st.todo, st.done ++ [line]⟩
  else ⟨st.todo ++ [line], st.done⟩

/-- `FileTaskRepository.save`: assign an id if missing; encode the task; if
`task.id` is truthy, remove by id from the active file and — only when
nothing matched there — from the completed file; if no id-matching line was
removed, fall back to removing the previous stored text from both files;
append the encoded line to the file selected by `task.is_completed`; record
the new text as `_original_text`. -/
def saveOp (st : RepoState) (task : Task) (orig : Option PLine)
    (freshId : String) : SaveResult :=
  let task := genTask task freshId
  let line := toPytodo task
  let rem := saveRemovePhase st task.id
  let st2 := saveFallbackPhase rem.1 rem.2 orig
  ⟨saveAppend st2 line task.is_completed, task, some line⟩

/-- The text-fallback phase of `delete`. -/
def deleteFallback (st : RepoState) (orig : Option PLine) : RepoState :=
  match orig with
  | some o => ⟨(removeByText st.todo o).1, (removeByText st.done o).1⟩
  | none => st

/-- `FileTaskRepository.delete`: remove by truthy id (active file first,
completed file only when the active file had no match) and stop if anything
matched; otherwise fall back to removing the last stored text from both
files. -/
def deleteOp (st : RepoState) (task : Task) (orig : Option PLine) :
    RepoState :=
  match task.id with
  | some i =>
    if i ≠ "" then
      let r1 := removeById st.todo i
      if r1.2 then ⟨r1.1, st.done⟩
      else
        let r2 := removeById st.done i
        if r2.2 then ⟨r1.1, r2.1⟩
        else deleteFallback ⟨r1.1, r2.1⟩ orig
    else deleteFallback st orig
  | none => deleteFallback st orig

/-- The association list models a Python dict only when its keys are
distinct; every `Task.attributes` arising in the Python program satisfies
this. -/
def AttrsWF (t : Task) : Prop :=
  (t.attributes.map Prod.fst).Nodup

/-- States of the two files reachable from the empty files (they are created
empty by `_ensure_files_exist`) through `save` and `delete` calls; the
saved tasks carry arbitrary data (only the dict-model condition `AttrsWF`
is imposed, which Python guarantees). -/
inductive Reachable : RepoState → Prop
  | init : Reachable ⟨[], []⟩
  | save {st} (task : Task) (orig : Option PLine) (freshId : String)
      (h : Reachable st) (hwf : AttrsWF task) :
      Reachable (saveOp st task orig freshId).state
  | del {st} (task : Task) (orig : Option PLine) (h : Reachable st) :
      Reachable (deleteOp st task orig)

/-- Count the lines answering to id `i`. -/
def countId (lines : List PLine) (i : String) : Nat :=
  lines.countP (fun l => lineId l == some i)

/-! ### Lemmas about the split/parse primitives -/

/-- A word: no whitespace characters. -/
def spaceFree (w : List Char) : Prop := ∀ c ∈ w, isWs c = false

theorem splitWsAux_append_ws {c : Char} (hc : isWs c = true)
    (xs ys acc : List Char) :
    splitWsAux (xs ++ c :: ys) acc = splitWsAux xs acc ++ splitWsAux ys [] := by
  induction xs generalizing acc with
  | nil => simp [splitWsAux, hc]
  | cons x xs ih =>
    by_cases hx : isWs x = true
    · simp [splitWsAux, hx, ih, List.append_assoc]
    · have hx' : isWs x = false := by
        cases h : isWs x
        · rfl
        · exact absurd h hx
      simp [splitWsAux, hx', ih]

theorem splitWs_append_ws {c : Char} (hc : isWs c = true) (xs ys : List Char) :
    splitWs (xs ++ c :: ys) = splitWs xs ++ splitWs ys :=
  splitWsAux_append_ws hc xs ys []

theorem splitWsAux_word :
    ∀ (w rest acc : List Char), spaceFree w →
      splitWsAux (w ++ rest) acc = splitWsAux rest (w.reverse ++ acc) := by
  intro w
  induction w with
  | nil => intro rest acc _; simp
  | cons x w ih =>
    intro rest acc hw
    have hx : isWs x = false := hw x (by simp)
    have hw' : spaceFree w := fun c hcm => hw c (by simp [hcm])
    simp only [List.cons_append, splitWsAux, hx, Bool.false_eq_true, if_false,
      List.reverse_cons, List.append_eq]
    rw [ih rest (x :: acc) hw', List.append_assoc]
    simp

theorem splitWs_single (w : List Char) (hw : spaceFree w) (hne : w ≠ []) :
    splitWs w = [w] := by
  have h1 : splitWs w = splitWsAux (w ++ []) [] := by simp [splitWs]
  rw [h1, splitWsAux_word w [] [] hw]
  have : w.reverse ≠ [] := by simpa using hne
  simp [splitWsAux, flushAcc, this]

theorem splitWs_all_ws (s : List Char) (h : ∀ c ∈ s, isWs c = true) :
    splitWs s = [] := by
  induction s with
  | nil => rfl
  | cons c cs ih =>
    have hc : isWs c = true := h c (by simp)
    show splitWsAux (c :: cs) [] = []
    simp only [splitWsAux, hc, if_true, flushAcc]
    simpa using ih (fun x hx => h x (by simp [hx]))

theorem splitWs_append_all_ws (d s : List Char) (h : ∀ c ∈ s, isWs c = true) :
    splitWs (d ++ s) = splitWs d := by
  cases s with
  | nil => simp
  | cons c cs =>
    rw [splitWs_append_ws (h c (by simp)) d cs]
    rw [splitWs_all_ws cs (fun x hx => h x (by simp [hx]))]
    simp

theorem splitWs_flat_tokens :
    ∀ (toks : List (List Char)) (d : List Char),
      (∀ tok ∈ toks, tok ≠ [] ∧ spaceFree tok) →
      splitWs (d ++ toks.flatMap (fun tok => ' ' :: tok))
        = splitWs d ++ toks := by
  intro toks
  induction toks with
  | nil => intro d _; simp
  | cons tk rest ih =>
    intro d h
    have htk := h tk (by simp)
    rw [List.flatMap_cons]
    have hassoc : d ++ ((' ' :: tk)
        ++ rest.flatMap (fun tok => ' ' :: tok))
        = d ++ ' ' :: (tk ++ rest.flatMap (fun tok => ' ' :: tok)) := by
      simp
    rw [hassoc, splitWs_append_ws (by decide) d]
    rw [ih tk (fun x hx => h x (by simp [hx]))]
    rw [splitWs_single tk htk.2 htk.1]
    simp

theorem splitWs_joinSp :
    ∀ ws : List (List Char), (∀ w ∈ ws, w ≠ [] ∧ spaceFree w) →
      splitWs (joinSp ws) = ws := by
  intro ws
  induction ws with
  | nil => intro _; rfl
  | cons w rest ih =>
    intro h
    cases rest with
    | nil =>
      have hw := h w (by simp)
      exact splitWs_single w hw.2 hw.1
    | cons v rest' =>
      show splitWs (w ++ ' ' :: joinSp (v :: rest')) = _
      rw [splitWs_append_ws (by decide) w]
      have hw := h w (by simp)
      rw [splitWs_single w hw.2 hw.1, ih (fun x hx => h x (by simp [hx]))]
      rfl

theorem joinSp_cons_flat (x : List Char) (rest : List (List Char)) :
    joinSp (x :: rest) = x ++ rest.flatMap (fun s => ' ' :: s) := by
  induction rest generalizing x with
  | nil => simp [joinSp]
  | cons y rest ih =>
    show x ++ ' ' :: joinSp (y :: rest) = _
    rw [ih y, List.flatMap_cons]
    simp

/-! ### Attribute-token parsing lemmas -/

theorem takeWhile_append_stop {p : Char → Bool} :
    ∀ (xs : List Char), (∀ c ∈ xs, p c = true) →
      ∀ (y : Char) (ys : List Char), p y = false →
        (xs ++ y :: ys).takeWhile p = xs := by
  intro xs
  induction xs with
  | nil => intro _ y ys hy; simp [List.takeWhile, hy]
  | cons x xs ih =>
    intro h y ys hy
    have hx : p x = true := h x (by simp)
    simp only [List.cons_append, List.takeWhile, hx, List.append_eq]
    rw [ih (fun c hc => h c (by simp [hc])) y ys hy]

theorem string_ne_data {s : String} (h : s ≠ "") : s.data ≠ [] := by
  intro hd
  apply h
  cases s with
  | mk data => cases hd; rfl

theorem wordAttr_token (k x : String) (hk : k ≠ "")
    (hkc : ∀ c ∈ k.data, (c == ':') = false) (hx : x ≠ "") :
    wordAttr (k.data ++ ':' :: x.data) = some (k, x) := by
  have htw : (k.data ++ ':' :: x.data).takeWhile (fun c => !(c == ':'))
      = k.data := by
    apply takeWhile_append_stop k.data
    · intro c hc
      simp [hkc c hc]
    · simp
  unfold wordAttr
  simp only [htw, List.drop_left]
  simp [string_ne_data hk, string_ne_data hx]

theorem filterMap_wordAttr_tokens (pairs : List (String × String))
    (h : ∀ kv ∈ pairs, kv.1 ≠ "" ∧ (∀ c ∈ kv.1.data, (c == ':') = false) ∧
      kv.2 ≠ "") :
    (pairs.map (fun kv => kv.1.data ++ ':' :: kv.2.data)).filterMap wordAttr
      = pairs := by
  induction pairs with
  | nil => rfl
  | cons kv rest ih =>
    obtain ⟨h1, h2, h3⟩ := h kv (by simp)
    simp only [List.map_cons, List.filterMap_cons,
      wordAttr_token kv.1 kv.2 h1 h2 h3]
    rw [ih (fun p hp => h p (by simp [hp]))]

/-! ### Dict-building (`addAttr` fold) lemmas -/

theorem lookup_cons_eq {β : Type} (k : String) (vs : β)
    (m : List (String × β)) :
    List.lookup k ((k, vs) :: m) = some vs := by
  simp [List.lookup]

theorem lookup_cons_ne {β : Type} {k0 k : String} (h : k0 ≠ k) (vs : β)
    (m : List (String × β)) :
    List.lookup k ((k0, vs) :: m) = List.lookup k m := by
  simp [List.lookup, beq_eq_false_iff_ne.mpr (fun e => h e.symm)]

theorem lookup_not_mem_none {β : Type} {k : String} {m : List (String × β)}
    (h : k ∉ m.map Prod.fst) : m.lookup k = none := by
  induction m with
  | nil => rfl
  | cons p m ih =>
    obtain ⟨k0, vs⟩ := p
    have h0 : k0 ≠ k := by
      intro e
      exact h (by simp [e])
    rw [lookup_cons_ne h0]
    exact ih (fun hm => h (by simp; right; simpa using hm))

theorem lookup_map_update (m : List (String × List String)) (k k' : String)
    (f : List String → List String) :
    (m.map (fun p => if p.1 == k' then (p.1, f p.2) else p)).lookup k
      = if k = k' then (m.lookup k).map f else m.lookup k := by
  induction m with
  | nil => simp
  | cons p m ih =>
    obtain ⟨k0, vs⟩ := p
    by_cases hk : k = k0
    · rw [hk] at ih ⊢
      by_cases hp : k0 = k'
      · have h1 : ((k0, vs).1 == k') = true := by simp [hp]
        simp only [List.map_cons, h1, if_true]
        rw [lookup_cons_eq, lookup_cons_eq, if_pos hp]
        rfl
      · have h1 : ((k0, vs).1 == k') = false := by simp [hp]
        simp only [List.map_cons, h1, Bool.false_eq_true, if_false]
        rw [lookup_cons_eq, lookup_cons_eq, if_neg hp]
    · have hne : k0 ≠ k := fun e => hk e.symm
      by_cases hp : k0 = k'
      · have h1 : ((k0, vs).1 == k') = true := by simp [hp]
        simp only [List.map_cons, h1, if_true]
        rw [lookup_cons_ne hne (f vs), lookup_cons_ne hne vs]
        exact ih
      · have h1 : ((k0, vs).1 == k') = false := by simp [hp]
        simp only [List.map_cons, h1, Bool.false_eq_true, if_false]
        rw [lookup_cons_ne hne vs, lookup_cons_ne hne vs]
        exact ih

theorem any_key_iff_lookup {β : Type} (m : List (String × β)) (k : String) :
    m.any (fun p => p.1 == k) = true ↔ (m.lookup k).isSome = true := by
  induction m with
  | nil => simp
  | cons p m ih =>
    obtain ⟨k0, vs⟩ := p
    by_cases hp : k0 = k
    · rw [hp, lookup_cons_eq]
      simp
    · rw [lookup_cons_ne hp]
      have h1 : ((k0, vs).1 == k) = false := beq_eq_false_iff_ne.mpr hp
      simp [h1, ih]

theorem lookup_append_right (m m' : List (String × List String))
    (k : String) (h : m.lookup k = none) :
    (m ++ m').lookup k = m'.lookup k := by
  induction m with
  | nil => simp
  | cons p m ih =>
    obtain ⟨k0, vs⟩ := p
    by_cases hp : k0 = k
    · rw [hp, lookup_cons_eq] at h
      exact absurd h (by simp)
    · rw [lookup_cons_ne hp] at h
      rw [List.cons_append, lookup_cons_ne hp]
      exact ih h

theorem lookup_append_single_ne {k k' : String} (hk : k ≠ k')
    (m : List (String × List String)) (v : String) :
    (m ++ [(k', [v])]).lookup k = m.lookup k := by
  induction m with
  | nil =>
    simp only [List.nil_append]
    rw [lookup_cons_ne (fun e => hk e.symm)]
  | cons p m ih =>
    obtain ⟨k0, vs⟩ := p
    by_cases hp : k0 = k
    · rw [List.cons_append, hp, lookup_cons_eq, lookup_cons_eq]
    · rw [List.cons_append, lookup_cons_ne hp, lookup_cons_ne hp]
      exact ih

theorem lookup_addAttr (m : List (String × List String)) (k k' v : String) :
    (addAttr m k' v).lookup k
      = if k = k' then some ((m.lookup k).getD [] ++ [v])
        else m.lookup k := by
  unfold addAttr
  by_cases hmem : m.any (fun p => p.1 == k') = true
  · rw [if_pos hmem, lookup_map_update m k k' (fun vs => vs ++ [v])]
    by_cases hk : k = k'
    · subst hk
      obtain ⟨vs, hvs⟩ := Option.isSome_iff_exists.mp
        ((any_key_iff_lookup m k).mp hmem)
      simp [hvs]
    · simp [hk]
  · rw [if_neg hmem]
    by_cases hk : k = k'
    · subst hk
      have hnone : m.lookup k = none := by
        cases h : m.lookup k with
        | none => rfl
        | some vs =>
          exact absurd ((any_key_iff_lookup m k).mpr (by simp [h])) hmem
      rw [lookup_append_right m _ k hnone, hnone, lookup_cons_eq]
      simp
    · rw [if_neg hk, lookup_append_single_ne hk]

theorem lookup_foldl_addAttr :
    ∀ (pairs : List (String × String)) (m : List (String × List String))
      (k : String),
      ((pairs.foldl (fun m kv => addAttr m kv.1 kv.2) m).lookup k)
        = match m.lookup k with
          | some vs => some
              (vs ++ (pairs.filter (fun kv => kv.1 == k)).map Prod.snd)
          | none =>
              if (pairs.filter (fun kv => kv.1 == k)).isEmpty then none
              else some ((pairs.filter (fun kv => kv.1 == k)).map Prod.snd) := by
  intro pairs
  induction pairs with
  | nil =>
    intro m k
    cases h : m.lookup k <;> simp [h]
  | cons kv rest ih =>
    intro m k
    rw [List.foldl_cons, ih (addAttr m kv.1 kv.2) k, lookup_addAttr]
    by_cases hk : k = kv.1
    · have hkb : (kv.1 == k) = true := by simp [hk]
      cases h : m.lookup k <;>
        simp [h, hk, List.filter_cons, hkb]
    · have hkb : (kv.1 == k) = false :=
        beq_eq_false_iff_ne.mpr (fun e => hk e.symm)
      have hfil : List.filter (fun p => p.1 == k) (kv :: rest)
          = List.filter (fun p => p.1 == k) rest := by
        simp [List.filter_cons, hkb]
      rw [if_neg hk]
      cases h : m.lookup k with
      | none => simp only [h, hfil]
      | some vs => simp only [h, hfil]

theorem lookup_attrsDictOf (pairs : List (String × String)) (k : String) :
    (attrsDictOf pairs).lookup k
      = if (pairs.filter (fun kv => kv.1 == k)).isEmpty then none
        else some ((pairs.filter (fun kv => kv.1 == k)).map Prod.snd) := by
  unfold attrsDictOf
  rw [lookup_foldl_addAttr pairs [] k]
  rfl

/-! ### Clean tasks: the id-consistency precondition -/

/-- A task whose attribute data is well-formed (distinct dict keys, non-empty
keys without whitespace or colons, non-empty whitespace-free values) and
whose description contains no `cmid:...` token of its own. The application's
own data (uuid-hex `cmid`, ISO-date `due`) always satisfies this; a
hand-crafted description such as `"cmid:evil bar"` does not. -/
def CleanTask (t : Task) : Prop :=
  AttrsWF t ∧
  (∀ kv ∈ t.attributes, kv.1 ≠ "" ∧
    (∀ c ∈ kv.1.data, isWs c = false ∧ (c == ':') = false) ∧
    (∀ x ∈ normVal kv.2, x ≠ "" ∧ ∀ c ∈ x.data, isWs c = false)) ∧
  (∀ kv ∈ parseAttrs t.description.data, kv.1 ≠ "cmid")

/-- A usable generated id: non-empty and whitespace-free (`uuid4().hex[:8]`
always is). -/
def CleanId (f : String) : Prop :=
  f ≠ "" ∧ ∀ c ∈ f.data, isWs c = false

theorem mem_tokenPairs {a : Attributes} {kv : String × String}
    (h : kv ∈ tokenPairs a) :
    ∃ e ∈ a, kv.1 = e.1 ∧ kv.2 ∈ normVal e.2 := by
  unfold tokenPairs at h
  rw [List.mem_flatMap] at h
  obtain ⟨e, he, hm⟩ := h
  rw [List.mem_map] at hm
  obtain ⟨x, hx, hkv⟩ := hm
  exact ⟨e, he, by rw [← hkv], by rw [← hkv]; exact hx⟩

theorem cleanTask_pairs {t : Task} (hc : CleanTask t) :
    ∀ kv ∈ tokenPairs t.attributes, kv.1 ≠ "" ∧
      (∀ c ∈ kv.1.data, (c == ':') = false) ∧ kv.2 ≠ "" := by
  intro kv hkv
  obtain ⟨e, he, hk, hx⟩ := mem_tokenPairs hkv
  obtain ⟨h1, h2, h3⟩ := hc.2.1 e he
  refine ⟨hk ▸ h1, fun c hcm => (h2 c (hk ▸ hcm)).2, (h3 kv.2 hx).1⟩

theorem cleanTask_tokens {t : Task} (hc : CleanTask t) :
    ∀ tok ∈ tokenChars t.attributes, tok ≠ [] ∧ spaceFree tok := by
  intro tok htok
  unfold tokenChars at htok
  rw [List.mem_map] at htok
  obtain ⟨kv, hkv, htok'⟩ := htok
  obtain ⟨e, he, hk, hx⟩ := mem_tokenPairs hkv
  obtain ⟨h1, h2, h3⟩ := hc.2.1 e he
  subst htok'
  constructor
  · simp
  · intro c hcm
    rw [List.mem_append] at hcm
    rcases hcm with hcm | hcm
    · exact (h2 c (hk ▸ hcm)).1
    · rw [List.mem_cons] at hcm
      rcases hcm with hcm | hcm
      · subst hcm; decide
      · exact (h3 kv.2 hx).2 c hcm

theorem parseAttrs_append_tokens (d : List Char) (a : Attributes)
    (hp : ∀ kv ∈ tokenPairs a, kv.1 ≠ "" ∧
      (∀ c ∈ kv.1.data, (c == ':') = false) ∧ kv.2 ≠ "")
    (hs : ∀ tok ∈ tokenChars a, tok ≠ [] ∧ spaceFree tok) :
    parseAttrs (d ++ (tokenChars a).flatMap (fun tok => ' ' :: tok))
      = parseAttrs d ++ tokenPairs a := by
  unfold parseAttrs
  rw [splitWs_flat_tokens (tokenChars a) d hs, List.filterMap_append]
  congr 1
  exact filterMap_wordAttr_tokens (tokenPairs a) hp

theorem filter_map_const_key (vs : List String) (k c : String) :
    (((vs.map (fun x => (k, x))).filter (fun kv => kv.1 == c)).map Prod.snd)
      = if k == c then vs else [] := by
  induction vs with
  | nil => cases h : (k == c) <;> simp [h]
  | cons v vs ih =>
    cases h : (k == c) with
    | false =>
      simp only [h] at ih ⊢
      simp only [List.map_cons, List.filter_cons, h, Bool.false_eq_true,
        if_false]
      simpa using ih
    | true =>
      simp only [h] at ih ⊢
      simp only [List.map_cons, List.filter_cons, h, if_true]
      simpa using ih

theorem filter_tokenPairs (a : Attributes) (c : String) :
    ((tokenPairs a).filter (fun kv => kv.1 == c)).map Prod.snd
      = a.flatMap (fun kv => if kv.1 == c then normVal kv.2 else []) := by
  induction a with
  | nil => rfl
  | cons e rest ih =>
    show (((((normVal e.2).map (fun x => (e.1, x)))
        ++ tokenPairs rest).filter (fun kv => kv.1 == c)).map Prod.snd) = _
    rw [List.filter_append, List.map_append, filter_map_const_key, ih,
      List.flatMap_cons]

theorem flatMap_vals_lookup_none (a : Attributes) (c : String)
    (h : a.lookup c = none) :
    a.flatMap (fun kv => if kv.1 == c then normVal kv.2 else []) = [] := by
  induction a with
  | nil => rfl
  | cons e rest ih =>
    by_cases he : e.1 = c
    · rw [show e = (e.1, e.2) from rfl, he, lookup_cons_eq] at h
      exact absurd h (by simp)
    · rw [show e = (e.1, e.2) from rfl, lookup_cons_ne he] at h
      rw [List.flatMap_cons, if_neg (by simp [he]), List.nil_append]
      exact ih h

theorem flatMap_vals_lookup_some (a : Attributes) (c : String) (v : AttrVal)
    (hnd : (a.map Prod.fst).Nodup) (h : a.lookup c = some v) :
    a.flatMap (fun kv => if kv.1 == c then normVal kv.2 else []) = normVal v := by
  induction a with
  | nil => simp at h
  | cons e rest ih =>
    by_cases he : e.1 = c
    · rw [show e = (e.1, e.2) from rfl, he, lookup_cons_eq] at h
      have hv : v = e.2 := by
        injection h with h'
        exact h'.symm
      have hnotin : c ∉ rest.map Prod.fst := by
        rw [List.map_cons] at hnd
        exact he ▸ (List.nodup_cons.mp hnd).1
      rw [List.flatMap_cons, if_pos (by simp [he]), hv,
        flatMap_vals_lookup_none rest c (lookup_not_mem_none hnotin)]
      simp
    · rw [show e = (e.1, e.2) from rfl, lookup_cons_ne he] at h
      rw [List.flatMap_cons, if_neg (by simp [he]), List.nil_append]
      exact ih ((List.nodup_cons.mp (List.map_cons Prod.fst e rest ▸ hnd)).2) h

theorem task_id_normVal (t : Task) {v : AttrVal}
    (h : t.attributes.lookup "cmid" = some v) : t.id = (normVal v).head? := by
  unfold Task.id
  rw [h]
  cases v <;> rfl

theorem lineId_toPytodo (t : Task) (hc : CleanTask t) :
    lineId (toPytodo t) = t.id := by
  have hd : (toPytodo t).description.data
      = t.description.data ++ (tokenChars t.attributes).flatMap
          (fun tok => ' ' :: tok) := rfl
  have hfilterP : (parseAttrs t.description.data).filter
      (fun kv => kv.1 == "cmid") = [] := by
    rw [List.filter_eq_nil_iff]
    intro kv hkv
    simp [beq_eq_false_iff_ne.mpr (hc.2.2 kv hkv)]
  have hsplit : parseAttrs (toPytodo t).description.data
      = parseAttrs t.description.data ++ tokenPairs t.attributes := by
    rw [hd]
    exact parseAttrs_append_tokens _ _ (cleanTask_pairs hc)
      (cleanTask_tokens hc)
  have hT := filter_tokenPairs t.attributes "cmid"
  show (match (PLine.attrs (toPytodo t)).lookup "cmid" with
    | some vs => vs.head?
    | none => none) = t.id
  unfold PLine.attrs
  rw [hsplit, lookup_attrsDictOf, List.filter_append, hfilterP,
    List.nil_append]
  cases hcm : t.attributes.lookup "cmid" with
  | none =>
    have hflat := flatMap_vals_lookup_none t.attributes "cmid" hcm
    have hnil : (tokenPairs t.attributes).filter (fun kv => kv.1 == "cmid")
        = [] := List.map_eq_nil_iff.mp (hT.trans hflat)
    rw [hnil]
    unfold Task.id
    rw [hcm]
    rfl
  | some v =>
    have hflat := flatMap_vals_lookup_some t.attributes "cmid" v hc.1 hcm
    have hv := hT.trans hflat
    rw [task_id_normVal t hcm]
    cases hnv : normVal v with
    | nil =>
      have hnil : (tokenPairs t.attributes).filter
          (fun kv => kv.1 == "cmid") = [] :=
        List.map_eq_nil_iff.mp (hv.trans hnv)
      rw [hnil]
      rfl
    | cons x xs =>
      have hne : ((tokenPairs t.attributes).filter
          (fun kv => kv.1 == "cmid")).isEmpty = false := by
        cases hfe : (tokenPairs t.attributes).filter
            (fun kv => kv.1 == "cmid") with
        | nil => rw [hfe] at hv; rw [hnv] at hv; simp at hv
        | cons y ys => rfl
      rw [if_neg (by simp [hne]), hv, hnv]

/-! ### Counting lemmas for the repository -/

theorem countId_append (l1 l2 : List PLine) (i : String) :
    countId (l1 ++ l2) i = countId l1 i + countId l2 i :=
  List.countP_append _ _ _

theorem countId_filter_le (lines : List PLine) (p : PLine → Bool)
    (j : String) : countId (lines.filter p) j ≤ countId lines j :=
  List.Sublist.countP_le _ (List.filter_sublist lines)

theorem countId_removeById_self (lines : List PLine) (i : String) :
    countId ((removeById lines i).1) i = 0 := by
  unfold countId removeById
  rw [List.countP_eq_zero]
  intro l hl
  rw [List.mem_filter] at hl
  simpa using hl.2

theorem removeById_found_iff (lines : List PLine) (i : String) :
    (removeById lines i).2 = true ↔ 0 < countId lines i := by
  unfold removeById countId
  rw [List.any_eq_true, List.countP_pos_iff]

theorem countId_single_eq {line : PLine} {i : String}
    (h : lineId line = some i) : countId [line] i = 1 := by
  simp [countId, List.countP_cons, h]

theorem countId_single_ne {line : PLine} {i : String}
    (h : ¬ lineId line = some i) : countId [line] i = 0 := by
  simp [countId, List.countP_cons, h]

/-- The exclusivity invariant: each non-empty id answers for at most one
line across the two files. -/
def ExclInv (st : RepoState) : Prop :=
  ∀ i : String, i ≠ "" → countId st.todo i + countId st.done i ≤ 1

theorem saveRemovePhase_le (st : RepoState) (tid : Option String)
    (j : String) :
    countId (saveRemovePhase st tid).1.todo j ≤ countId st.todo j ∧
    countId (saveRemovePhase st tid).1.done j ≤ countId st.done j := by
  cases tid with
  | none => exact ⟨Nat.le_refl _, Nat.le_refl _⟩
  | some i =>
    simp only [saveRemovePhase]
    by_cases hi : i ≠ ""
    · rw [if_pos hi]
      by_cases h1 : (removeById st.todo i).2
      · rw [if_pos h1]
        exact ⟨countId_filter_le _ _ _, Nat.le_refl _⟩
      · rw [if_neg h1]
        exact ⟨countId_filter_le _ _ _, countId_filter_le _ _ _⟩
    · rw [if_neg hi]
      exact ⟨Nat.le_refl _, Nat.le_refl _⟩

theorem saveRemovePhase_truthy (st : RepoState) (i : String) (hi : i ≠ "")
    (hinv : ExclInv st) :
    countId (saveRemovePhase st (some i)).1.todo i = 0 ∧
    countId (saveRemovePhase st (some i)).1.done i = 0 := by
  simp only [saveRemovePhase]
  rw [if_pos hi]
  by_cases h1 : (removeById st.todo i).2
  · rw [if_pos h1]
    refine ⟨countId_removeById_self _ _, ?_⟩
    show countId st.done i = 0
    have hpos := (removeById_found_iff st.todo i).mp h1
    have := hinv i hi
    omega
  · rw [if_neg h1]
    exact ⟨countId_removeById_self _ _, countId_removeById_self _ _⟩

theorem saveFallbackPhase_le (st : RepoState) (removed : Bool)
    (orig : Option PLine) (j : String) :
    countId (saveFallbackPhase st removed orig).todo j ≤ countId st.todo j ∧
    countId (saveFallbackPhase st removed orig).done j ≤ countId st.done j := by
  cases removed
  · cases orig with
    | none => exact ⟨Nat.le_refl _, Nat.le_refl _⟩
    | some o => exact ⟨countId_filter_le _ _ _, countId_filter_le _ _ _⟩
  · exact ⟨Nat.le_refl _, Nat.le_refl _⟩

theorem deleteFallback_le (st : RepoState) (orig : Option PLine)
    (j : String) :
    countId (deleteFallback st orig).todo j ≤ countId st.todo j ∧
    countId (deleteFallback st orig).done j ≤ countId st.done j := by
  cases orig with
  | none => exact ⟨Nat.le_refl _, Nat.le_refl _⟩
  | some o => exact ⟨countId_filter_le _ _ _, countId_filter_le _ _ _⟩

theorem deleteOp_le (st : RepoState) (task : Task) (orig : Option PLine)
    (j : String) :
    countId (deleteOp st task orig).todo j ≤ countId st.todo j ∧
    countId (deleteOp st task orig).done j ≤ countId st.done j := by
  unfold deleteOp
  cases task.id with
  | none => exact deleteFallback_le st orig j
  | some i =>
    simp only []
    by_cases hi : i ≠ ""
    · rw [if_pos hi]
      by_cases h1 : (removeById st.todo i).2
      · rw [if_pos h1]
        exact ⟨countId_filter_le _ _ _, Nat.le_refl _⟩
      · rw [if_neg h1]
        by_cases h2 : (removeById st.done i).2
        · rw [if_pos h2]
          exact ⟨countId_filter_le _ _ _, countId_filter_le _ _ _⟩
        · rw [if_neg h2]
          have h3 := deleteFallback_le
            ⟨(removeById st.todo i).1, (removeById st.done i).1⟩ orig j
          exact ⟨Nat.le_trans h3.1 (countId_filter_le _ _ _),
            Nat.le_trans h3.2 (countId_filter_le _ _ _)⟩
    · rw [if_neg hi]
      exact deleteFallback_le st orig j

theorem cleanTask_gen {task : Task} {f : String} (hc : CleanTask task)
    (hf : CleanId f) : CleanTask (genTask task f) := by
  unfold genTask
  by_cases h : task.attributes.lookup "cmid" = none
  · rw [if_pos h]
    obtain ⟨hwf, hvals, hdesc⟩ := hc
    refine ⟨?_, ?_, hdesc⟩
    · show ((task.attributes ++ [("cmid", AttrVal.str f)]).map
        Prod.fst).Nodup
      rw [List.map_append]
      rw [List.nodup_append]
      refine ⟨hwf, by simp, ?_⟩
      intro k hk
      simp only [List.map_cons, List.map_nil, List.mem_singleton]
      intro he
      subst he
      have : (task.attributes.lookup "cmid").isSome = true := by
        rw [List.mem_map] at hk
        obtain ⟨e, he', hke⟩ := hk
        exact (any_key_iff_lookup task.attributes "cmid").mp
          (List.any_eq_true.mpr ⟨e, he', by simp [hke]⟩)
      rw [h] at this
      exact absurd this (by simp)
    · intro kv hkv
      rw [List.mem_append] at hkv
      rcases hkv with hkv | hkv
      · exact hvals kv hkv
      · rw [List.mem_singleton] at hkv
        subst hkv
        refine ⟨?_, ?_, ?_⟩
        · show ("cmid" : String) ≠ ""
          decide
        · show ∀ c ∈ ("cmid" : String).data, isWs c = false ∧ (c == ':') = false
          decide
        intro x hx
        rw [show normVal (AttrVal.str f) = [f] from rfl,
          List.mem_singleton] at hx
        subst hx
        exact ⟨hf.1, hf.2⟩
  · rw [if_neg h]
    exact hc

theorem saveOp_counts (st : RepoState) (task : Task) (orig : Option PLine)
    (freshId : String) (hc : CleanTask task) (hf : CleanId freshId)
    (hinv : ExclInv st) :
    ExclInv (saveOp st task orig freshId).state ∧
    (∀ i, i ≠ "" → (saveOp st task orig freshId).task.id = some i →
      (if (saveOp st task orig freshId).task.is_completed
        then countId (saveOp st task orig freshId).state.done i = 1 ∧
          countId (saveOp st task orig freshId).state.todo i = 0
        else countId (saveOp st task orig freshId).state.todo i = 1 ∧
          countId (saveOp st task orig freshId).state.done i = 0)) := by
  have hcg : CleanTask (genTask task freshId) := cleanTask_gen hc hf
  have hline : lineId (toPytodo (genTask task freshId))
      = (genTask task freshId).id := lineId_toPytodo _ hcg
  have hsave : saveOp st task orig freshId
      = ⟨saveAppend
          (saveFallbackPhase (saveRemovePhase st (genTask task freshId).id).1
            (saveRemovePhase st (genTask task freshId).id).2 orig)
          (toPytodo (genTask task freshId))
          (genTask task freshId).is_completed,
        genTask task freshId, some (toPytodo (genTask task freshId))⟩ := rfl
  set g := genTask task freshId with hg
  set line := toPytodo g with hlinedef
  set st1 := (saveRemovePhase st g.id).1 with hst1
  set st2 := saveFallbackPhase st1 (saveRemovePhase st g.id).2 orig with hst2
  have hle : ∀ j, countId st2.todo j ≤ countId st.todo j ∧
      countId st2.done j ≤ countId st.done j := by
    intro j
    have h1 := saveRemovePhase_le st g.id j
    have h2 := saveFallbackPhase_le st1 (saveRemovePhase st g.id).2 orig j
    exact ⟨Nat.le_trans h2.1 h1.1, Nat.le_trans h2.2 h1.2⟩
  have hzero : ∀ i, i ≠ "" → g.id = some i →
      countId st2.todo i = 0 ∧ countId st2.done i = 0 := by
    intro i hi hgi
    have h1 := saveRemovePhase_truthy st i hi hinv
    rw [← hgi] at h1
    rw [← hst1] at h1
    have h2 := saveFallbackPhase_le st1 (saveRemovePhase st g.id).2 orig i
    rw [← hst2] at h2
    omega
  constructor
  · intro j hj
    rw [hsave]
    show countId (saveAppend st2 line g.is_completed).todo j
        + countId (saveAppend st2 line g.is_completed).done j ≤ 1
    have hlinej : countId [line] j ≤
        (if g.id = some j then 1 else 0) := by
      by_cases hlj : lineId line = some j
      · rw [countId_single_eq hlj, if_pos (hline ▸ hlj)]
      · rw [countId_single_ne hlj]
        exact Nat.zero_le _
    unfold saveAppend
    cases hcomp : g.is_completed
    · simp only [Bool.false_eq_true, if_false]
      rw [countId_append]
      by_cases hgj : g.id = some j
      · have hz := hzero j hj hgj
        rw [if_pos hgj] at hlinej
        omega
      · rw [if_neg hgj] at hlinej
        have := hinv j hj
        have := (hle j).1
        have := (hle j).2
        omega
    · simp only [if_true]
      rw [countId_append]
      by_cases hgj : g.id = some j
      · have hz := hzero j hj hgj
        rw [if_pos hgj] at hlinej
        omega
      · rw [if_neg hgj] at hlinej
        have := hinv j hj
        have := (hle j).1
        have := (hle j).2
        omega
  · intro i hi hgi
    rw [hsave] at hgi ⊢
    simp only at hgi
    have hz := hzero i hi hgi
    have hl1 : countId [line] i = 1 :=
      countId_single_eq (by rw [hline, hgi])
    show (if g.is_completed then _ else _)
    unfold saveAppend
    cases hcomp : g.is_completed
    · simp only [Bool.false_eq_true, if_false]
      rw [countId_append]
      omega
    · simp only [if_true]
      rw [countId_append]
      omega

theorem removeById_not_found {lines : List PLine} {i : String}
    (h : lines.any (fun l => lineId l == some i) = false) :
    (removeById lines i).1 = lines := by
  unfold removeById
  rw [List.filter_eq_self]
  intro l hl
  rw [List.any_eq_false] at h
  simpa using h l hl

/-- Clean-save reachability: the two files start empty and evolve through
`save` calls on clean tasks with clean generated ids, and through arbitrary
`delete` calls. -/
inductive ReachableClean : RepoState → Prop
  | init : ReachableClean ⟨[], []⟩
  | save {st} (task : Task) (orig : Option PLine) (freshId : String)
      (h : ReachableClean st) (hc : CleanTask task) (hf : CleanId freshId) :
      ReachableClean (saveOp st task orig freshId).state
  | del {st} (task : Task) (orig : Option PLine) (h : ReachableClean st) :
      ReachableClean (deleteOp st task orig)

theorem reachableClean_inv {st : RepoState} (h : ReachableClean st) :
    ExclInv st := by
  induction h with
  | init => intro i hi; simp [countId]
  | save task orig freshId h hc hf ih =>
    exact (saveOp_counts _ task orig freshId hc hf ih).1
  | @del st' task orig h ih =>
    intro i hi
    have h1 := deleteOp_le st' task orig i
    have := ih i hi
    omega

instance decidableSpaceFree (w : List Char) : Decidable (spaceFree w) := by
  unfold spaceFree
  infer_instance

instance decidableAttrsWF (t : Task) : Decidable (AttrsWF t) := by
  unfold AttrsWF
  infer_instance

instance decidableCleanTask (t : Task) : Decidable (CleanTask t) := by
  unfold CleanTask AttrsWF
  infer_instance

instance decidableCleanId (f : String) : Decidable (CleanId f) := by
  unfold CleanId
  infer_instance

/-- A task whose description smuggles in a literal `cmid:evil` token. -/
def cxTaskB : Task := mkTask0 "cmid:evil bar"

/-- A completed task legitimately carrying stable id `evil` (e.g. loaded
from a stored line). -/
def cxTaskA : Task :=
  mkTask "write report" true none none none [] [] [("cmid", AttrVal.str "evil")]

/-- The state after saving `cxTaskA` into the empty files. -/
def cxState1 : RepoState := (saveOp ⟨[], []⟩ cxTaskA none "zzzz9999").state

/-- The save of `cxTaskB` from that state. -/
def cxSave2 : SaveResult := saveOp cxState1 cxTaskB none "a1b2c3d4"

/-- C1 as stated is false: `pytodotxt` parses `key:value` tokens anywhere in
the text and `_remove_by_id` matches on the first `cmid` value, so after
saving a task whose description contains `cmid:evil`, the stored line
answers to id `evil` — `cxTaskA`'s stable id `evil` now matches lines in
BOTH files, and the freshly assigned id `a1b2c3d4` of the saved task matches
a line in NEITHER file, although both saves succeeded from a reachable
state (the first save's state is reachable from the empty files). -/
theorem save_exclusivity_counterexample :
    Reachable cxState1 ∧ AttrsWF cxTaskB ∧ cxTaskA.id = some "evil" ∧
    cxSave2.task.id = some "a1b2c3d4" ∧ cxSave2.task.is_completed = false ∧
    countId cxSave2.state.todo "evil" = 1 ∧
    countId cxSave2.state.done "evil" = 1 ∧
    countId cxSave2.state.todo "a1b2c3d4" = 0 ∧
    countId cxSave2.state.done "a1b2c3d4" = 0 :=
  ⟨Reachable.save cxTaskA none "zzzz9999" Reachable.init (by decide),
    by decide, by decide, by decide, by decide, by decide, by decide,
    by decide, by decide⟩

/-- C1 (amended): for tasks with well-formed attribute data and no
`cmid:...` token inside the description (`CleanTask` — all
application-created data is of this shape), saving from any state reachable
through such saves and through deletes puts the task's id on exactly one
line, in the file selected by `is_completed`, and afterwards every non-empty
id still matches at most one line across the two files. -/
theorem save_exclusivity (st : RepoState) (task : Task) (orig : Option PLine)
    (freshId : String) (hr : ReachableClean st) (hc : CleanTask task)
    (hf : CleanId freshId) (i : String) (hi : i ≠ "")
    (hid : (saveOp st task orig freshId).task.id = some i) :
    (if (saveOp st task orig freshId).task.is_completed
      then countId (saveOp st task orig freshId).state.done i = 1 ∧
        countId (saveOp st task orig freshId).state.todo i = 0
      else countId (saveOp st task orig freshId).state.todo i = 1 ∧
        countId (saveOp st task orig freshId).state.done i = 0) ∧
    ExclInv (saveOp st task orig freshId).state := by
  have h := saveOp_counts st task orig freshId hc hf (reachableClean_inv hr)
  exact ⟨h.2 i hi hid, h.1⟩

/-- C1 witness: a concrete clean save from the empty (reachable) state. -/
theorem save_exclusivity_witness :
    (if (saveOp ⟨[], []⟩ (mkTask0 "buy milk") none
        "a1b2c3d4").task.is_completed
      then countId (saveOp ⟨[], []⟩ (mkTask0 "buy milk") none
          "a1b2c3d4").state.done "a1b2c3d4" = 1 ∧
        countId (saveOp ⟨[], []⟩ (mkTask0 "buy milk") none
          "a1b2c3d4").state.todo "a1b2c3d4" = 0
      else countId (saveOp ⟨[], []⟩ (mkTask0 "buy milk") none
          "a1b2c3d4").state.todo "a1b2c3d4" = 1 ∧
        countId (saveOp ⟨[], []⟩ (mkTask0 "buy milk") none
          "a1b2c3d4").state.done "a1b2c3d4" = 0) ∧
    ExclInv (saveOp ⟨[], []⟩ (mkTask0 "buy milk") none "a1b2c3d4").state :=
  save_exclusivity ⟨[], []⟩ (mkTask0 "buy milk") none "a1b2c3d4"
    ReachableClean.init (by decide) (by decide) "a1b2c3d4" (by decide)
    (by decide)

/-- The task of the C2 counterexample: active, with stable id `x`. -/
def c2Task : Task :=
  mkTask "task" false none none none [] [] [("cmid", AttrVal.str "x")]

/-- Its encoded line. -/
def c2Line : PLine := toPytodo c2Task

/-- The save of `c2Task` from a state holding its line in both files. -/
def c2Save : SaveResult := saveOp ⟨[c2Line], [c2Line]⟩ c2Task none "ffff0000"

/-- C2 as stated is false: when an id-matching line exists in the active
file, `save` never touches the completed file — with the line present in
both files, the completed file still contains the id-matching line after
the save, though the claim requires removal from both. -/
theorem save_not_both_counterexample :
    c2Save.task.id = some "x" ∧ lineId c2Line = some "x" ∧
    c2Save.state.done = [c2Line] ∧ countId c2Save.state.done "x" = 1 := by
  decide

/-- C2 (amended): for a task whose (possibly freshly assigned) id is truthy,
`save` removes id-matching lines from the active file, from the completed
file only when the active file had none; only when no id-matching line was
found in either file does it remove lines equal to the previous stored text
from both files; it then appends the freshly encoded line to the file
selected by `is_completed`. -/
theorem save_removal_semantics (st : RepoState) (task : Task)
    (orig : Option PLine) (freshId : String) (i : String) (hi : i ≠ "")
    (hid : (saveOp st task orig freshId).task.id = some i) :
    (st.todo.any (fun l => lineId l == some i) = true →
      (saveOp st task orig freshId).state
        = saveAppend ⟨st.todo.filter (fun l => !(lineId l == some i)),
            st.done⟩
          (toPytodo (saveOp st task orig freshId).task)
          (saveOp st task orig freshId).task.is_completed) ∧
    (st.todo.any (fun l => lineId l == some i) = false →
      st.done.any (fun l => lineId l == some i) = true →
      (saveOp st task orig freshId).state
        = saveAppend ⟨st.todo,
            st.done.filter (fun l => !(lineId l == some i))⟩
          (toPytodo (saveOp st task orig freshId).task)
          (saveOp st task orig freshId).task.is_completed) ∧
    (st.todo.any (fun l => lineId l == some i) = false →
      st.done.any (fun l => lineId l == some i) = false →
      (saveOp st task orig freshId).state
        = saveAppend
          (match orig with
            | some o => ⟨st.todo.filter (fun l => !(l == o)),
                st.done.filter (fun l => !(l == o))⟩
            | none => ⟨st.todo, st.done⟩)
          (toPytodo (saveOp st task orig freshId).task)
          (saveOp st task orig freshId).task.is_completed) := by
  have hgid : (genTask task freshId).id = some i := hid
  have hsave : saveOp st task orig freshId
      = ⟨saveAppend
          (saveFallbackPhase (saveRemovePhase st (genTask task freshId).id).1
            (saveRemovePhase st (genTask task freshId).id).2 orig)
          (toPytodo (genTask task freshId))
          (genTask task freshId).is_completed,
        genTask task freshId, some (toPytodo (genTask task freshId))⟩ := rfl
  have hrem : saveRemovePhase st (genTask task freshId).id
      = if (removeById st.todo i).2
          then (⟨(removeById st.todo i).1, st.done⟩, true)
          else (⟨(removeById st.todo i).1, (removeById st.done i).1⟩,
            (removeById st.done i).2) := by
    rw [hgid]
    simp only [saveRemovePhase]
    rw [if_pos hi]
  refine ⟨?_, ?_, ?_⟩
  · intro h1
    have hr1 : (removeById st.todo i).2 = true := h1
    rw [hsave]
    show saveAppend _ _ _ = _
    rw [hrem, if_pos hr1]
    rfl
  · intro h1 h2
    have hr1 : (removeById st.todo i).2 = false := h1
    have hr2 : (removeById st.done i).2 = true := h2
    rw [hsave]
    show saveAppend _ _ _ = _
    rw [hrem, if_neg (by rw [hr1]; simp)]
    rw [show (removeById st.todo i).1 = st.todo from removeById_not_found h1]
    rw [show saveFallbackPhase ⟨st.todo, (removeById st.done i).1⟩
        (removeById st.done i).2 orig
        = ⟨st.todo, (removeById st.done i).1⟩ by rw [hr2]; rfl]
    rfl
  · intro h1 h2
    have hr1 : (removeById st.todo i).2 = false := h1
    have hr2 : (removeById st.done i).2 = false := h2
    rw [hsave]
    show saveAppend _ _ _ = _
    rw [hrem, if_neg (by rw [hr1]; simp)]
    rw [show (removeById st.todo i).1 = st.todo from removeById_not_found h1]
    rw [show (removeById st.done i).1 = st.done from removeById_not_found h2]
    rw [show saveFallbackPhase ⟨st.todo, st.done⟩
        (removeById st.done i).2 orig
        = saveFallbackPhase ⟨st.todo, st.done⟩ false orig by rw [hr2]]
    cases orig with
    | none => rfl
    | some o => rfl

/-- C2 witness: the first clause of the amended semantics at a concrete
state holding the id-matching line in the active file. -/
theorem save_removal_semantics_witness :
    (saveOp ⟨[c2Line], []⟩ c2Task none "ffff0000").state
      = saveAppend
        ⟨([c2Line] : List PLine).filter (fun l => !(lineId l == some "x")),
          ([] : List PLine)⟩
        (toPytodo (saveOp ⟨[c2Line], []⟩ c2Task none "ffff0000").task)
        (saveOp ⟨[c2Line], []⟩ c2Task none "ffff0000").task.is_completed :=
  (save_removal_semantics ⟨[c2Line], []⟩ c2Task none "ffff0000" "x"
    (by decide) (by decide)).1 (by decide)

/-! ### `replAll` (Python `str.replace(pat, "")`) lemmas -/

theorem replAllAux_fuel (pat : List Char) :
    ∀ (f1 f2 : Nat) (s : List Char), s.length ≤ f1 → s.length ≤ f2 →
      replAllAux pat f1 s = replAllAux pat f2 s := by
  intro f1
  induction f1 with
  | zero =>
    intro f2 s h1 h2
    have hs : s = [] := List.eq_nil_of_length_eq_zero (Nat.le_zero.mp h1)
    subst hs
    cases f2 <;> rfl
  | succ f1 ih =>
    intro f2 s h1 h2
    cases s with
    | nil => cases f2 <;> rfl
    | cons c cs =>
      cases f2 with
      | zero => simp at h2
      | succ f2 =>
        have e1 : replAllAux pat (f1 + 1) (c :: cs)
            = if pat ≠ [] ∧ pat <+: (c :: cs)
              then replAllAux pat f1 ((c :: cs).drop pat.length)
              else c :: replAllAux pat f1 cs := rfl
        have e2 : replAllAux pat (f2 + 1) (c :: cs)
            = if pat ≠ [] ∧ pat <+: (c :: cs)
              then replAllAux pat f2 ((c :: cs).drop pat.length)
              else c :: replAllAux pat f2 cs := rfl
        rw [e1, e2]
        by_cases h : pat ≠ [] ∧ pat <+: (c :: cs)
        · rw [if_pos h, if_pos h]
          have hlen : ((c :: cs).drop pat.length).length ≤ cs.length := by
            rw [List.length_drop]
            have : 0 < pat.length := List.length_pos.mpr h.1
            simp only [List.length_cons]
            omega
          have hb1 : ((c :: cs).drop pat.length).length ≤ f1 := by
            simp only [List.length_cons] at h1
            omega
          have hb2 : ((c :: cs).drop pat.length).length ≤ f2 := by
            simp only [List.length_cons] at h2
            omega
          exact ih f2 _ hb1 hb2
        · rw [if_neg h, if_neg h]
          simp only [List.length_cons] at h1 h2
          rw [ih f2 cs (by omega) (by omega)]

theorem replAllAux_step (pat : List Char) (f : Nat) (c : Char)
    (cs : List Char) :
    replAllAux pat (f + 1) (c :: cs)
      = if pat ≠ [] ∧ pat <+: (c :: cs)
        then replAllAux pat f ((c :: cs).drop pat.length)
        else c :: replAllAux pat f cs := rfl

theorem replAll_cons (pat : List Char) (c : Char) (cs : List Char) :
    replAll pat (c :: cs)
      = if pat ≠ [] ∧ pat <+: (c :: cs)
        then replAll pat ((c :: cs).drop pat.length)
        else c :: replAll pat cs := by
  show (if pat ≠ [] ∧ pat <+: (c :: cs)
      then replAllAux pat cs.length ((c :: cs).drop pat.length)
      else c :: replAllAux pat cs.length cs) = _
  by_cases h : pat ≠ [] ∧ pat <+: (c :: cs)
  · rw [if_pos h, if_pos h]
    have hlen : ((c :: cs).drop pat.length).length ≤ cs.length := by
      rw [List.length_drop]
      have : 0 < pat.length := List.length_pos.mpr h.1
      simp only [List.length_cons]
      omega
    exact replAllAux_fuel pat cs.length _ _ hlen (Nat.le_refl _)
  · rw [if_neg h, if_neg h]
    rfl

theorem prefix_through_space :
    ∀ (pat : List Char), spaceFree pat →
      ∀ (u v : List Char), pat <+: (u ++ ' ' :: v) → pat <+: u := by
  intro pat
  induction pat with
  | nil => intro _ u v _; exact List.nil_prefix
  | cons p ps ih =>
    intro hsp u v h
    cases u with
    | nil =>
      rw [List.nil_append, List.cons_prefix_cons] at h
      have hw : isWs p = true := by rw [h.1]; decide
      rw [hsp p (by simp)] at hw
      exact absurd hw (by simp)
    | cons a u' =>
      rw [List.cons_append, List.cons_prefix_cons] at h
      rw [List.cons_prefix_cons]
      exact ⟨h.1, ih (fun c hc => hsp c (by simp [hc])) u' v h.2⟩

theorem replAll_no_infix {pat : List Char} :
    ∀ s : List Char, ¬ (pat <:+: s) → replAll pat s = s := by
  intro s
  induction s with
  | nil => intro _; rfl
  | cons c cs ih =>
    intro h
    rw [replAll_cons, if_neg (fun hc => h hc.2.isInfix)]
    rw [ih (fun hi => h (List.infix_cons hi))]

theorem replAll_word_pass {pat : List Char} (hne : pat ≠ [])
    (hsp : spaceFree pat) :
    ∀ (part rest : List Char), spaceFree part → ¬ (pat <:+: part) →
      replAll pat (part ++ ' ' :: rest) = part ++ ' ' :: replAll pat rest := by
  intro part
  induction part with
  | nil =>
    intro rest _ _
    rw [List.nil_append, replAll_cons, if_neg]
    · rfl
    · rintro ⟨hn, hp⟩
      obtain ⟨p, ps, rfl⟩ := List.exists_cons_of_ne_nil hne
      rw [List.cons_prefix_cons] at hp
      have hw : isWs p = true := by rw [hp.1]; decide
      rw [hsp p (by simp)] at hw
      exact absurd hw (by simp)
  | cons a part' ih =>
    intro rest hpf hni
    rw [List.cons_append, replAll_cons, if_neg]
    · rw [ih rest (fun c hc => hpf c (by simp [hc]))
        (fun hi => hni (List.infix_cons hi))]
      rw [List.cons_append]
    · rintro ⟨hn, hp⟩
      rw [← List.cons_append] at hp
      exact hni (prefix_through_space pat hsp (a :: part') rest hp).isInfix

theorem replAll_head_match (pat rest : List Char) (hne : pat ≠ []) :
    replAll pat (pat ++ rest) = replAll pat rest := by
  obtain ⟨p, ps, rfl⟩ := List.exists_cons_of_ne_nil hne
  rw [List.cons_append, replAll_cons, if_pos]
  · rw [show (p :: (ps ++ rest)).drop (p :: ps).length = rest by
      rw [← List.cons_append, List.drop_left]]
  · exact ⟨by simp, by rw [← List.cons_append]; exact List.prefix_append _ _⟩

theorem replAll_joinSp (pat : List Char) (hne : pat ≠ [])
    (hsp : spaceFree pat) :
    ∀ segs : List (List Char),
      (∀ s ∈ segs, spaceFree s ∧ (s = pat ∨ ¬ pat <:+: s)) →
      replAll pat (joinSp segs)
        = joinSp (segs.map (fun s => if s = pat then [] else s)) := by
  intro segs
  induction segs with
  | nil => intro _; rfl
  | cons w rest ih =>
    intro h
    obtain ⟨hwsp, hwd⟩ := h w (by simp)
    cases rest with
    | nil =>
      show replAll pat w = joinSp [if w = pat then [] else w]
      by_cases hw : w = pat
      · rw [if_pos hw, hw,
          show replAll pat pat = replAll pat (pat ++ []) by
            rw [List.append_nil],
          replAll_head_match pat [] hne]
        rfl
      · rw [if_neg hw]
        exact replAll_no_infix w (hwd.resolve_left (fun e => hw e))
    | cons v rest' =>
      show replAll pat (w ++ ' ' :: joinSp (v :: rest'))
        = joinSp ((if w = pat then [] else w)
            :: (v :: rest').map (fun s => if s = pat then [] else s))
      have htail : ∀ s ∈ v :: rest', spaceFree s ∧ (s = pat ∨ ¬ pat <:+: s) :=
        fun s hs => h s (by simp [hs])
      by_cases hw : w = pat
      · rw [hw, replAll_head_match pat _ hne, replAll_cons, if_neg]
        · rw [ih htail, if_pos rfl]
          rfl
        · rintro ⟨hn, hp⟩
          obtain ⟨p, ps, rfl⟩ := List.exists_cons_of_ne_nil hne
          rw [List.cons_prefix_cons] at hp
          have hws : isWs p = true := by rw [hp.1]; decide
          rw [hsp p (by simp)] at hws
          exact absurd hws (by simp)
      · rw [replAll_word_pass hne hsp w (joinSp (v :: rest')) hwsp
          (hwd.resolve_left (fun e => hw e)), ih htail, if_neg hw]
        rfl

theorem fold_replAll_segments :
    ∀ (toks : List (List Char)) (base parts : List (List Char)),
      (∀ s ∈ base, spaceFree s ∧ ∀ tok ∈ toks, ¬ tok <:+: s) →
      (∀ s ∈ parts, spaceFree s ∧ ∀ tok ∈ toks, (s = tok ∨ ¬ tok <:+: s)) →
      (∀ tok ∈ toks, tok ≠ [] ∧ spaceFree tok) →
      toks.foldl (fun a tok => replAll tok a) (joinSp (base ++ parts))
        = joinSp (base ++ parts.map (fun s => if s ∈ toks then [] else s)) := by
  intro toks
  induction toks with
  | nil =>
    intro base parts _ _ _
    simp
  | cons tok rest ih =>
    intro base parts hb hp ht
    obtain ⟨htne, htsp⟩ := ht tok (by simp)
    rw [List.foldl_cons]
    have hsegs : ∀ s ∈ base ++ parts,
        spaceFree s ∧ (s = tok ∨ ¬ tok <:+: s) := by
      intro s hs
      rw [List.mem_append] at hs
      rcases hs with hs | hs
      · exact ⟨(hb s hs).1, Or.inr ((hb s hs).2 tok (by simp))⟩
      · exact ⟨(hp s hs).1, (hp s hs).2 tok (by simp)⟩
    rw [replAll_joinSp tok htne htsp (base ++ parts) hsegs, List.map_append]
    have hbase_id : base.map (fun s => if s = tok then [] else s) = base := by
      rw [show base.map (fun s => if s = tok then [] else s)
          = base.map id from List.map_congr_left (fun s hs => by
            rw [if_neg (fun e => (hb s hs).2 tok (by simp)
              (by subst e; exact List.infix_refl _))]
            rfl)]
      exact List.map_id base
    rw [hbase_id]
    rw [ih base (parts.map (fun s => if s = tok then [] else s))
      (fun s hs => ⟨(hb s hs).1,
        fun tk htk => (hb s hs).2 tk (by simp [htk])⟩)
      (fun s hs => by
        rw [List.mem_map] at hs
        obtain ⟨s0, hs0, hes⟩ := hs
        by_cases hs0t : s0 = tok
        · rw [← hes, if_pos hs0t]
          refine ⟨by intro c hc; simp at hc, ?_⟩
          intro tk htk
          right
          intro hinf
          exact (ht tk (by simp [htk])).1 (List.eq_nil_of_infix_nil hinf)
        · rw [← hes, if_neg hs0t]
          exact ⟨(hp s0 hs0).1,
            fun tk htk => (hp s0 hs0).2 tk (by simp [htk])⟩)
      (fun tk htk => ht tk (by simp [htk]))]
    congr 2
    rw [List.map_map]
    apply List.map_congr_left
    intro s hs
    show (if (if s = tok then [] else s) ∈ rest then [] else
      (if s = tok then [] else s)) = if s ∈ tok :: rest then [] else s
    by_cases hst : s = tok
    · have h2 : s ∈ tok :: rest := by rw [hst]; exact List.mem_cons_self _ _
      rw [if_pos hst, ite_self, if_pos h2]
    · rw [if_neg hst]
      by_cases hr : s ∈ rest
      · rw [if_pos hr, if_pos (List.mem_cons_of_mem _ hr)]
      · rw [if_neg hr, if_neg (by
          rw [List.mem_cons]
          rintro (h | h)
          · exact hst h
          · exact hr h)]

/-! ### Building the attribute dict from the encode-side token pairs -/

theorem addAttr_not_mem {m : List (String × List String)} {k : String}
    (hk : k ∉ m.map Prod.fst) (v : String) :
    addAttr m k v = m ++ [(k, [v])] := by
  unfold addAttr
  rw [if_neg]
  intro hany
  have h1 := (any_key_iff_lookup m k).mp hany
  rw [lookup_not_mem_none hk] at h1
  simp at h1

theorem addAttr_append_last {m : List (String × List String)} {k : String}
    (hk : k ∉ m.map Prod.fst) (l : List String) (v : String) :
    addAttr (m ++ [(k, l)]) k v = m ++ [(k, l ++ [v])] := by
  unfold addAttr
  rw [if_pos]
  · rw [List.map_append]
    congr 1
    · rw [show m.map (fun p => if p.1 == k then (p.1, p.2 ++ [v]) else p)
          = m.map id from List.map_congr_left (fun p hp => by
            have hne : p.1 ≠ k := fun e =>
              hk (e ▸ List.mem_map_of_mem Prod.fst hp)
            rw [if_neg (by simp [beq_eq_false_iff_ne.mpr hne])]
            rfl)]
      exact List.map_id m
    · simp
  · rw [List.any_append]
    simp

theorem fold_vals_entry :
    ∀ (vs : List String) (m : List (String × List String)) (k : String)
      (acc : List String), k ∉ m.map Prod.fst →
      vs.foldl (fun m' x => addAttr m' k x) (m ++ [(k, acc)])
        = m ++ [(k, acc ++ vs)] := by
  intro vs
  induction vs with
  | nil => intro m k acc _; simp
  | cons v vs ih =>
    intro m k acc hk
    rw [List.foldl_cons, addAttr_append_last hk acc v,
      ih m k (acc ++ [v]) hk]
    simp

theorem fold_tokenPairs_gen :
    ∀ (a : Attributes) (m : List (String × List String)),
      (a.map Prod.fst).Nodup → (∀ kv ∈ a, normVal kv.2 ≠ []) →
      (∀ k ∈ a.map Prod.fst, k ∉ m.map Prod.fst) →
      (tokenPairs a).foldl (fun m' kv => addAttr m' kv.1 kv.2) m
        = m ++ a.map (fun kv => (kv.1, normVal kv.2)) := by
  intro a
  induction a with
  | nil => intro m _ _ _; simp [tokenPairs]
  | cons e rest ih =>
    intro m hnd hne hdisj
    have hkm : e.1 ∉ m.map Prod.fst := hdisj e.1 (by simp)
    obtain ⟨v, vs, hvs⟩ : ∃ v vs, normVal e.2 = v :: vs := by
      cases h : normVal e.2 with
      | nil => exact absurd h (hne e (by simp))
      | cons v vs => exact ⟨v, vs, rfl⟩
    rw [show tokenPairs (e :: rest)
        = (normVal e.2).map (fun x => (e.1, x)) ++ tokenPairs rest from rfl]
    rw [List.foldl_append, List.foldl_map, hvs, List.foldl_cons,
      addAttr_not_mem hkm v, fold_vals_entry vs m e.1 [v] hkm]
    have hnd' : (rest.map Prod.fst).Nodup := by
      rw [List.map_cons, List.nodup_cons] at hnd
      exact hnd.2
    have hhead : e.1 ∉ rest.map Prod.fst := by
      rw [List.map_cons, List.nodup_cons] at hnd
      exact hnd.1
    rw [ih (m ++ [(e.1, [v] ++ vs)]) hnd'
      (fun kv hkv => hne kv (by simp [hkv]))
      (fun k hk => by
        rw [List.map_append, List.mem_append]
        rintro (h | h)
        · exact hdisj k (by simp [hk]) h
        · simp only [List.map_cons, List.map_nil,
            List.mem_singleton] at h
          subst h
          exact hhead hk)]
    simp [hvs]

theorem attrsDictOf_tokenPairs (a : Attributes)
    (hnd : (a.map Prod.fst).Nodup) (hne : ∀ kv ∈ a, normVal kv.2 ≠ []) :
    attrsDictOf (tokenPairs a) = a.map (fun kv => (kv.1, normVal kv.2)) := by
  unfold attrsDictOf
  rw [fold_tokenPairs_gen a [] hnd hne (by intro k _ h; simp at h)]
  simp

/-! ### The strip loop as a flat fold over the token texts -/

theorem stripAttrs_eq_fold :
    ∀ (attrs : List (String × List String)) (d : List Char),
      stripAttrs attrs d
        = (attrs.flatMap
            (fun kv => kv.2.map (fun v => kv.1.data ++ ':' :: v.data))).foldl
          (fun a tok => replAll tok a) d := by
  intro attrs
  induction attrs with
  | nil => intro d; rfl
  | cons kv rest ih =>
    intro d
    show stripAttrs rest
        (kv.2.foldl (fun a v => replAll (kv.1.data ++ ':' :: v.data) a) d)
      = _
    rw [ih, List.flatMap_cons, List.foldl_append, List.foldl_map]

theorem dictTokens_map (a : Attributes) :
    (a.map (fun kv => (kv.1, normVal kv.2))).flatMap
        (fun kv => kv.2.map (fun v => kv.1.data ++ ':' :: v.data))
      = tokenChars a := by
  unfold tokenChars tokenPairs
  induction a with
  | nil => rfl
  | cons e rest ih =>
    simp only [List.map_cons, List.flatMap_cons, List.map_append,
      List.map_map] at ih ⊢
    rw [ih]
    rfl

theorem mkTask_fields (d : String) (b : Bool) (pr : Option String)
    (cd cp : Option Date) (pj cx : List String) (a : Attributes) :
    (mkTask d b pr cd cp pj cx a).description = d ∧
    (mkTask d b pr cd cp pj cx a).is_completed = b ∧
    (mkTask d b pr cd cp pj cx a).priority = pr ∧
    (mkTask d b pr cd cp pj cx a).creation_date = cd ∧
    (mkTask d b pr cd cp pj cx a).completion_date = cp ∧
    (mkTask d b pr cd cp pj cx a).attributes = a := by
  unfold mkTask Task.refreshMetadata
  by_cases h : pj = [] ∧ cx = [] <;> simp [h]

theorem append_flat_eq_joinSp (ws toks : List (List Char)) :
    joinSp ws ++ toks.flatMap (fun tok => ' ' :: tok)
      = joinSp ((if ws = [] then [[]] else ws) ++ toks) := by
  cases ws with
  | nil =>
    rw [if_pos rfl]
    show joinSp [] ++ _ = joinSp ([] :: toks)
    rw [show joinSp ([] : List (List Char)) = [] from rfl, List.nil_append,
      joinSp_cons_flat [] toks, List.nil_append]
  | cons w ws' =>
    rw [if_neg (by simp)]
    show joinSp (w :: ws') ++ _ = joinSp ((w :: ws') ++ toks)
    rw [joinSp_cons_flat w ws',
      show (w :: ws') ++ toks = w :: (ws' ++ toks) from rfl,
      joinSp_cons_flat w (ws' ++ toks), List.flatMap_append,
      List.append_assoc]

theorem filterMap_none_all {α β : Type} (f : α → Option β) :
    ∀ (l : List α), (∀ x ∈ l, f x = none) → l.filterMap f = [] := by
  intro l
  induction l with
  | nil => intro _; rfl
  | cons x xs ih =>
    intro h
    simp only [List.filterMap_cons, h x (by simp)]
    exact ih (fun y hy => h y (by simp [hy]))

theorem strip_encode_core (pad toks : List (List Char))
    (hpadne : pad ≠ [])
    (hbase : ∀ s ∈ pad, spaceFree s ∧ ∀ tok ∈ toks, ¬ tok <:+: s)
    (htoks : ∀ tok ∈ toks, tok ≠ [] ∧ spaceFree tok)
    (hpair : ∀ a ∈ toks, ∀ b ∈ toks, a ≠ b → ¬ a <:+: b) :
    normWs (toks.foldl (fun a tok => replAll tok a) (joinSp (pad ++ toks)))
      = joinSp (splitWs (joinSp pad)) := by
  have hparts : ∀ s ∈ toks, spaceFree s ∧
      ∀ tok ∈ toks, (s = tok ∨ ¬ tok <:+: s) := by
    intro s hs
    refine ⟨(htoks s hs).2, fun tok htok => ?_⟩
    by_cases he : s = tok
    · exact Or.inl he
    · exact Or.inr (hpair tok htok s hs (fun e => he e.symm))
  rw [fold_replAll_segments toks pad toks hbase hparts htoks]
  have hmap : toks.map (fun s => if s ∈ toks then ([] : List Char) else s)
      = toks.map (fun _ => ([] : List Char)) :=
    List.map_congr_left (fun s hs => if_pos hs)
  rw [hmap]
  have hjo : joinSp (pad ++ toks.map (fun _ => ([] : List Char)))
      = joinSp pad ++ (toks.map (fun _ => ([] : List Char))).flatMap
          (fun tok => ' ' :: tok) := by
    have h0 := append_flat_eq_joinSp pad (toks.map (fun _ => []))
    rw [if_neg hpadne] at h0
    exact h0.symm
  have hsp : ∀ c ∈ (toks.map (fun _ => ([] : List Char))).flatMap
      (fun tok => ' ' :: tok), isWs c = true := by
    intro c hc
    rw [List.mem_flatMap] at hc
    obtain ⟨s, hs, hcm⟩ := hc
    rw [List.mem_map] at hs
    obtain ⟨_, _, hsnil⟩ := hs
    rw [← hsnil] at hcm
    simp only [List.mem_cons, List.not_mem_nil, or_false] at hcm
    subst hcm
    decide
  unfold normWs
  rw [hjo, splitWs_append_all_ws _ _ hsp]

theorem strip_encode (ws toks : List (List Char))
    (hw : ∀ w ∈ ws, w ≠ [] ∧ spaceFree w)
    (htoks : ∀ tok ∈ toks, tok ≠ [] ∧ spaceFree tok)
    (hpair : ∀ a ∈ toks, ∀ b ∈ toks, a ≠ b → ¬ a <:+: b)
    (hinw : ∀ a ∈ toks, ∀ w ∈ ws, ¬ a <:+: w) :
    normWs (toks.foldl (fun a tok => replAll tok a)
      (joinSp ws ++ toks.flatMap (fun tok => ' ' :: tok))) = joinSp ws := by
  by_cases hws0 : ws = []
  · subst hws0
    have hbase : ∀ s ∈ [([] : List Char)], spaceFree s ∧
        ∀ tok ∈ toks, ¬ tok <:+: s := by
      intro s hs
      simp only [List.mem_singleton] at hs
      subst hs
      refine ⟨fun c hc => absurd hc (List.not_mem_nil c), ?_⟩
      intro tok htok hinf
      exact (htoks tok htok).1 (List.eq_nil_of_infix_nil hinf)
    have harg : joinSp ([] : List (List Char))
        ++ toks.flatMap (fun tok => ' ' :: tok)
        = joinSp ([[]] ++ toks) := by
      rw [show ([[]] : List (List Char)) ++ toks = [] :: toks from rfl,
        joinSp_cons_flat]
      rfl
    rw [harg, strip_encode_core [[]] toks (by simp) hbase htoks hpair]
    rfl
  · have h0 := append_flat_eq_joinSp ws toks
    rw [if_neg hws0] at h0
    rw [h0, strip_encode_core ws toks hws0
      (fun s hs => ⟨(hw s hs).2, fun tok htok => hinw tok htok s hs⟩)
      htoks hpair, splitWs_joinSp ws hw]

/-- C3: round-trip of the codec. Corrected form: for every task whose
description is a space-joined list of non-empty whitespace-free words none
of which parses as a `key:value` token, whose attributes are well-formed
(`CleanTask`) with non-empty value lists, and whose attribute tokens are
pairwise non-overlapping and do not occur inside description words,
`_to_domain (_to_pytodo t)` reproduces the priority, dates, completed flag
and description exactly, and the attributes up to representing every value
as the list of its components. Contrary to the claim, `_to_domain` DOES
strip the `key:value` tokens from the description when decoding (see the
counterexample); the round trip still closes because `_to_pytodo` appended
exactly those tokens. -/
theorem codec_round_trip (t : Task) (ws : List (List Char))
    (hws : t.description.data = joinSp ws)
    (hw : ∀ w ∈ ws, w ≠ [] ∧ spaceFree w)
    (hnoattr : ∀ w ∈ ws, wordAttr w = none)
    (hc : CleanTask t)
    (hne : ∀ kv ∈ t.attributes, normVal kv.2 ≠ [])
    (hpair : ∀ a ∈ tokenChars t.attributes, ∀ b ∈ tokenChars t.attributes,
      a ≠ b → ¬ a <:+: b)
    (hinw : ∀ a ∈ tokenChars t.attributes, ∀ w ∈ ws, ¬ a <:+: w) :
    (toDomain (toPytodo t)).description = t.description ∧
    (toDomain (toPytodo t)).is_completed = t.is_completed ∧
    (toDomain (toPytodo t)).priority = t.priority ∧
    (toDomain (toPytodo t)).creation_date = t.creation_date ∧
    (toDomain (toPytodo t)).completion_date = t.completion_date ∧
    (toDomain (toPytodo t)).attributes
      = t.attributes.map (fun kv => (kv.1, AttrVal.list (normVal kv.2))) := by
  have hPd : parseAttrs t.description.data = [] := by
    unfold parseAttrs
    rw [hws, splitWs_joinSp ws hw]
    exact filterMap_none_all wordAttr ws hnoattr
  have hdfull : (toPytodo t).description.data
      = t.description.data ++ (tokenChars t.attributes).flatMap
          (fun tok => ' ' :: tok) := rfl
  have hsplitP : parseAttrs (toPytodo t).description.data
      = tokenPairs t.attributes := by
    rw [hdfull, parseAttrs_append_tokens _ _ (cleanTask_pairs hc)
      (cleanTask_tokens hc), hPd, List.nil_append]
  have hattrs : (toPytodo t).attrs
      = t.attributes.map (fun kv => (kv.1, normVal kv.2)) := by
    unfold PLine.attrs
    rw [hsplitP, attrsDictOf_tokenPairs t.attributes hc.1 hne]
  by_cases hA : t.attributes = []
  · have hT0 : tokenChars t.attributes = [] := by rw [hA]; rfl
    have hdesc0 : (toPytodo t).description = t.description := by
      show (⟨t.description.data ++ (tokenChars t.attributes).flatMap
        (fun tok => ' ' :: tok)⟩ : String) = t.description
      rw [hT0]
      show (⟨t.description.data ++ []⟩ : String) = t.description
      rw [List.append_nil]
    have hdec : toDomain (toPytodo t)
        = mkTask (toPytodo t).description t.is_completed t.priority
            t.creation_date t.completion_date (toPytodo t).projTags
            (toPytodo t).ctxTags [] := by
      show mkTask
          (if (toPytodo t).attrs.isEmpty then (toPytodo t).description
            else ⟨normWs (stripAttrs (toPytodo t).attrs
              (toPytodo t).description.data)⟩)
          (toPytodo t).is_completed (toPytodo t).priority
          (toPytodo t).creation_date (toPytodo t).completion_date
          (toPytodo t).projTags (toPytodo t).ctxTags
          ((toPytodo t).attrs.map (fun kv => (kv.1, AttrVal.list kv.2)))
        = _
      rw [hattrs, hA]
      simp only [List.map_nil, List.isEmpty_nil, if_true]
      rfl
    rw [hdec]
    obtain ⟨f1, f2, f3, f4, f5, f6⟩ := mkTask_fields
      (toPytodo t).description t.is_completed t.priority
      t.creation_date t.completion_date (toPytodo t).projTags
      (toPytodo t).ctxTags []
    exact ⟨f1.trans hdesc0, f2, f3, f4, f5, by rw [f6, hA]; rfl⟩
  · have hmapne : t.attributes.map (fun kv => (kv.1, normVal kv.2)) ≠ [] := by
      simp [hA]
    have hEmpty : (t.attributes.map
        (fun kv => (kv.1, normVal kv.2))).isEmpty = false := by
      cases hmm : (t.attributes.map (fun kv => (kv.1, normVal kv.2))).isEmpty
      · rfl
      · exact absurd (List.isEmpty_iff.mp hmm) hmapne
    have hdec : toDomain (toPytodo t)
        = mkTask
            ⟨normWs (stripAttrs
              (t.attributes.map (fun kv => (kv.1, normVal kv.2)))
              (toPytodo t).description.data)⟩
            t.is_completed t.priority t.creation_date t.completion_date
            (toPytodo t).projTags (toPytodo t).ctxTags
            ((t.attributes.map (fun kv => (kv.1, normVal kv.2))).map
              (fun kv => (kv.1, AttrVal.list kv.2))) := by
      show mkTask
          (if (toPytodo t).attrs.isEmpty then (toPytodo t).description
            else ⟨normWs (stripAttrs (toPytodo t).attrs
              (toPytodo t).description.data)⟩)
          (toPytodo t).is_completed (toPytodo t).priority
          (toPytodo t).creation_date (toPytodo t).completion_date
          (toPytodo t).projTags (toPytodo t).ctxTags
          ((toPytodo t).attrs.map (fun kv => (kv.1, AttrVal.list kv.2)))
        = _
      rw [hattrs]
      simp only [hEmpty, Bool.false_eq_true, if_false]
      rfl
    rw [hdec]
    obtain ⟨f1, f2, f3, f4, f5, f6⟩ := mkTask_fields
      ⟨normWs (stripAttrs
        (t.attributes.map (fun kv => (kv.1, normVal kv.2)))
        (toPytodo t).description.data)⟩
      t.is_completed t.priority t.creation_date t.completion_date
      (toPytodo t).projTags (toPytodo t).ctxTags
      ((t.attributes.map (fun kv => (kv.1, normVal kv.2))).map
        (fun kv => (kv.1, AttrVal.list kv.2)))
    refine ⟨?_, f2, f3, f4, f5, by rw [f6, List.map_map]; rfl⟩
    rw [f1, stripAttrs_eq_fold, dictTokens_map, hdfull, hws,
      strip_encode ws (tokenChars t.attributes) hw (cleanTask_tokens hc)
        hpair hinw, ← hws]

/-- A task with one scalar attribute, as `update_task(due_date=...)`
produces. -/
def c3Task : Task :=
  mkTask "pay rent" false none none none [] []
    [("due", AttrVal.str "2025-01-01")]

/-- Counterexample to C3's "the codec does not strip key:value attribute
tokens from the stored description when decoding": `_to_pytodo` stores the
token in the line text, and `_to_domain` strips it back out of the
description (lines 82–88 of `repository.py`), keeping it only in the
attributes dict. -/
theorem codec_strips_counterexample :
    (toPytodo c3Task).description = "pay rent due:2025-01-01" ∧
    (toDomain (toPytodo c3Task)).description = "pay rent" ∧
    (toDomain (toPytodo c3Task)).attributes
      = [("due", AttrVal.list ["2025-01-01"])] := by
  decide

/-- A round-trip input with a `cmid` attribute, as the repository itself
creates on save. -/
def c3wTask : Task :=
  mkTask "buy milk" false none none none [] []
    [("cmid", AttrVal.str "ab12")]

theorem codec_round_trip_witness :
    (toDomain (toPytodo c3wTask)).description = c3wTask.description ∧
    (toDomain (toPytodo c3wTask)).attributes
      = c3wTask.attributes.map
          (fun kv => (kv.1, AttrVal.list (normVal kv.2))) := by
  obtain ⟨h1, _, _, _, _, h6⟩ := codec_round_trip c3wTask
    [['b', 'u', 'y'], ['m', 'i', 'l', 'k']]
    (by decide) (by decide) (by decide) (by decide) (by decide)
    (by decide) (by decide)
  exact ⟨h1, h6⟩

end Checkmate
